import Mathlib

/-!
Verification development for the hybrid anime recommendation engine
(backend/services/recommendation_service.py, backend/services/content_based_service.py,
backend/utils/title_normalizer.py).

Conventions of the shallow embedding:
* Python strings are Lean String values; string operations are implemented
  structurally on List Char so that they evaluate in the kernel.
  Python str.lower is modelled by mapping Char.toLower (ASCII; all titles in
  scope are treated this way uniformly).
* Python floats (cosine similarity scores) are modelled as rationals.
* The sklearn cosine_similarity primitive is an external library collaborator;
  it is modelled as an abstract score matrix (sim : Nat -> Nat -> Rat) carried by
  the state, exactly as the code consumes its output: sim a b is the entry at
  column b of the row cosine_similarity(item_vectors[a], item_vectors).
* Python dicts that the code only reads pointwise become functions into Option;
  the two insertion-ordered dicts that the code builds incrementally
  (aggregated_scores, seen_base_titles) become association lists that preserve
  insertion order, mirroring CPython dict semantics.
* fastapi HTTPException becomes an error value; raising becomes Except.error.
-/

/-! ## Character and substring utilities (Python str primitives) -/

/-- Python str.lower on a character list (ASCII case folding). -/
def lowerChars (s : List Char) : List Char := s.map Char.toLower

/-- The class matched by the regex token for whitespace. -/
def wsC (c : Char) : Bool := c.isWhitespace

/-- The class matched by the regex token for a decimal digit. -/
def digC (c : Char) : Bool := c.isDigit

/-- Python substring containment a in b, on character lists. -/
def chInfix (a b : List Char) : Bool := b.tails.any (fun t => a.isPrefixOf t)

/-- Python substring containment a in b, on strings. -/
def strIn (a b : String) : Bool := chInfix a.data b.data

/-! ## A miniature regex engine for the normalizer patterns

backend/utils/title_normalizer.py applies re.sub with 15 fixed patterns.
Each pattern is a sequence of these atoms.  Matching is greedy without
backtracking; for the 15 patterns in scope this coincides with the regex
semantics because every quantified character class is disjoint from the first
character of the literal that follows it (or is followed only by the end
anchor), so the greedy match extent equals the regex match extent. -/

inductive RAtom where
  | lit  (s : List Char)
  | star (cls : Char → Bool)
  | plus (cls : Char → Bool)
  | eos

/-- Greedy matcher: returns the remainder of the input after a match at the
current position, or none if the pattern does not match here. -/
def matchAtoms : List RAtom → List Char → Option (List Char)
  | [], s => some s
  | .lit l :: ps, s => if l.isPrefixOf s then matchAtoms ps (s.drop l.length) else none
  | .star cls :: ps, s => matchAtoms ps (s.dropWhile cls)
  | .plus cls :: ps, s =>
      if (s.takeWhile cls).isEmpty then none else matchAtoms ps (s.dropWhile cls)
  | .eos :: ps, s => if s.isEmpty then matchAtoms ps s else none

/-- re.sub(pattern, empty, s): scan left to right, remove every non-overlapping
match.  Fuelled structural recursion (fuel = length of the input) so that it
evaluates in the kernel; none of the 15 patterns can match the empty string, so
a successful match always consumes at least one character and the guard branch
for a non-consuming match is unreachable. -/
def reSubAux (p : List RAtom) : Nat → List Char → List Char
  | _, [] => []
  | 0, s => s
  | fuel + 1, c :: rest =>
      match matchAtoms p (c :: rest) with
      | some rem =>
          if rem.length ≤ rest.length then reSubAux p fuel rem
          else c :: reSubAux p fuel rest
      | none => c :: reSubAux p fuel rest

/-- re.sub(pattern, empty, s). -/
def reSub (p : List RAtom) (s : List Char) : List Char := reSubAux p s.length s

/-- The character list of a string literal. -/
def lchars (s : String) : List Char := s.data

/-- The ordered pattern cascade of normalize_title
(backend/utils/title_normalizer.py lines 9 to 26). -/
def titlePatterns : List (List RAtom) := [
  [.star wsC, .lit (lchars "season"), .plus wsC, .plus digC],
  [.star wsC, .plus digC, .star wsC, .lit (lchars "season")],
  [.star wsC, .plus digC, .lit (lchars "nd"), .star wsC, .lit (lchars "season")],
  [.star wsC, .plus digC, .lit (lchars "rd"), .star wsC, .lit (lchars "season")],
  [.star wsC, .plus digC, .lit (lchars "th"), .star wsC, .lit (lchars "season")],
  [.star wsC, .lit (lchars "final"), .star wsC, .lit (lchars "season")],
  [.star wsC, .lit (lchars "part"), .plus wsC, .plus digC],
  [.star wsC, .plus digC, .eos],
  [.star wsC, .lit (lchars ":"), .star wsC, .lit (lchars "the"), .plus wsC,
    .lit (lchars "final"), .plus wsC, .lit (lchars "season")],
  [.star wsC, .lit (lchars ":"), .star wsC, .lit (lchars "shippuden")],
  [.star wsC, .lit (lchars ":"), .star wsC, .lit (lchars "brotherhood")],
  [.star wsC, .lit (lchars ":"), .star wsC, .lit (lchars "next"), .plus wsC,
    .lit (lchars "generations")],
  [.star wsC, .lit (lchars "shippuden")],
  [.star wsC, .lit (lchars "brotherhood")],
  [.star wsC, .lit (lchars ":"), .star wsC, .plus (fun c => c != ':'), .eos]
]

/-- re.sub of a whitespace run to a single space, fuelled like reSub. -/
def collapseWsAux : Nat → List Char → List Char
  | _, [] => []
  | 0, s => s
  | fuel + 1, c :: rest =>
      if wsC c then ' ' :: collapseWsAux fuel (rest.dropWhile wsC)
      else c :: collapseWsAux fuel rest

/-- Collapse internal whitespace runs to one space. -/
def collapseWs (s : List Char) : List Char := collapseWsAux s.length s

/-- Python str.strip: drop leading and trailing whitespace. -/
def stripWs (s : List Char) : List Char :=
  ((s.dropWhile wsC).reverse.dropWhile wsC).reverse

/-- normalize_title (backend/utils/title_normalizer.py): lower-case, apply the
pattern cascade, delete colons, collapse whitespace, strip.  The Python guard
if not title returns the empty string for an empty input. -/
def normalize_title (title : String) : String :=
  if title = "" then ""
  else
    let lowered := lowerChars title.data
    let afterPats := titlePatterns.foldl (fun acc p => reSub p acc) lowered
    let noColon := afterPats.filter (fun c => c != ':')
    String.mk (stripWs (collapseWs noColon))

/-! ## Data model -/

/-- The item id type (Python int). -/
abbrev ItemId := Int

/-- One catalog metadata entry: the dict stored per id in objects metadata.
A missing field models a key absent from that dict. -/
structure MetaEntry where
  title : Option String
  genre : Option String
deriving DecidableEq

/-- The in-memory state dictionary (the objects dict built at startup).
hasModel models membership of the key anime_id_to_idx (the SVD artifacts);
hasTfidf models membership of the key tfidf_matrix.  nItems is the number of
rows of item_vectors; sim a b is the cosine similarity of row a against row b
as produced by the external sklearn primitive (see the header).  tfidfSim
plays the same role for the TF-IDF matrix, whose rows are parallel to
tfidfAnimeIds. -/
structure Objects where
  hasModel : Bool
  animeIdToIdx : ItemId → Option Nat
  idxToAnimeId : Nat → ItemId
  nItems : Nat
  sim : Nat → Nat → ℚ
  metadata : ItemId → Option MetaEntry
  hasTfidf : Bool
  tfidfAnimeIds : List ItemId
  tfidfSim : Nat → Nat → ℚ

/-- fastapi HTTPException(status_code, detail). -/
structure HTTPError where
  status_code : Nat
  detail : String
deriving DecidableEq

/-- One returned candidate record {id, title, genre, score}; the img_url field
is always None in the source and is omitted. -/
structure RecItem where
  id : ItemId
  title : String
  genre : String
  score : ℚ
deriving DecidableEq

/-- The response dict of the recommendation entry points.  input_titles is
only present for batch responses, hence the Option. -/
structure RecResult where
  recommendations : List RecItem
  method : String
  message : String
  inputTitles : Option (List String)
deriving DecidableEq

/-! ## Shared pipeline pieces -/

/-- anime_id in objects.get("anime_id_to_idx", {}): false when the model was
never loaded, else membership in the id-to-position dict. -/
def memIdx (objs : Objects) (a : ItemId) : Bool :=
  objs.hasModel && (objs.animeIdToIdx a).isSome

/-- objects metadata .get(rid, {}).get("title", "").lower() -/
def metaTitleLower (objs : Objects) (rid : ItemId) : String :=
  String.mk (lowerChars (match objs.metadata rid with
    | none => ""
    | some m => m.title.getD "").data)

/-- meta.get("title", f-string placeholder Anime #rid) -/
def displayTitle (objs : Objects) (rid : ItemId) : String :=
  match objs.metadata rid with
  | none => "Anime #" ++ toString rid
  | some m => m.title.getD ("Anime #" ++ toString rid)

/-- meta.get("genre", "Unknown") -/
def displayGenre (objs : Objects) (rid : ItemId) : String :=
  match objs.metadata rid with
  | none => "Unknown"
  | some m => m.genre.getD "Unknown"

/-- Stable insertion into a list sorted by le: the new element goes before the
first element it relates to.  With le x y := (y.key <= x.key) this is a stable
descending sort, which is exactly the (unique) result of the stable Python
list.sort(key=..., reverse=True). -/
def insertBy (le : α → α → Bool) (a : α) : List α → List α
  | [] => [a]
  | b :: t => if le a b then a :: b :: t else b :: insertBy le a t

/-- Stable sort by le (see insertBy). -/
def insSortBy (le : α → α → Bool) : List α → List α
  | [] => []
  | a :: t => insertBy le a (insSortBy le t)

/-- scores.argsort()[::-1][:50]: positions 0..n-1 sorted by ascending score
and reversed, keeping the top 50.  numpy argsort leaves the order of ties
unspecified; the embedding fixes the stable ascending order before reversal,
a faithful refinement of the unspecified choice. -/
def topIndicesDesc (n : Nat) (score : Nat → ℚ) : List Nat :=
  ((insSortBy (fun i j => decide (score i ≤ score j)) (List.range n)).reverse).take 50

/-- The seen_base_titles dict: association list base title to (score, rec),
in insertion order, as CPython dicts preserve it. -/
abbrev Seen := List (String × ℚ × RecItem)

/-- One iteration of the dedup branch: if the base title was seen, keep the
better-scoring record in place (strictly greater replaces); else append. -/
def seenUpdate : Seen → String → ℚ → RecItem → Seen
  | [], key, score, r => [(key, score, r)]
  | (k, s, r0) :: rest, key, score, r =>
      if k = key then
        (if s < score then (k, score, r) :: rest else (k, s, r0) :: rest)
      else (k, s, r0) :: seenUpdate rest key score r

/-- One candidate of the loop: a skipped candidate (none, the continue
branches) leaves the dict alone, a kept one is folded in. -/
def seenStep (seen : Seen) (o : Option (String × ℚ × RecItem)) : Seen :=
  match o with
  | none => seen
  | some (k, v, r) => seenUpdate seen k v r

/-- The candidate loop over all prepared candidates. -/
def seenFold (items : List (Option (String × ℚ × RecItem))) : Seen :=
  items.foldl seenStep []

/-- recommendations.sort(key=lambda x: x[score], reverse=True) -/
def sortRecsDesc (l : List RecItem) : List RecItem :=
  insSortBy (fun a b => decide (b.score ≤ a.score)) l

/-! ## Collaborative backend (recommend_collaborative) -/

/-- The body of the candidate loop of recommend_collaborative for one position
i: skip the input itself, skip sequels of the input (substring either way or
equal base titles), otherwise produce the dedup key, the score and the
candidate record. -/
def collabPrep (objs : Objects) (animeId : ItemId) (inputTitle inputBase : String)
    (idx : Nat) (i : Nat) : Option (String × ℚ × RecItem) :=
  let recId := objs.idxToAnimeId i
  if recId = animeId then none
  else
    let recTitle := metaTitleLower objs recId
    let recBase := normalize_title recTitle
    if strIn inputTitle recTitle || strIn recTitle inputTitle || inputBase = recBase then
      none
    else
      let score := objs.sim idx i
      some (recBase, score, ⟨recId, displayTitle objs recId, displayGenre objs recId, score⟩)

/-- recommend_collaborative (recommendation_service.py lines 9 to 82). -/
def recommend_collaborative (animeId : ItemId) (objs : Objects) (limit : Nat) :
    Except HTTPError RecResult :=
  if !objs.hasModel then .error ⟨503, "Model not loaded"⟩
  else
    match objs.animeIdToIdx animeId with
    | none => .error ⟨404, "Anime ID not found in SVD model"⟩
    | some idx =>
      let inputTitle := metaTitleLower objs animeId
      let inputBase := normalize_title inputTitle
      let top := topIndicesDesc objs.nItems (fun i => objs.sim idx i)
      let seen := seenFold (top.map (collabPrep objs animeId inputTitle inputBase idx))
      let recs := sortRecsDesc (seen.map (fun e => e.2.2))
      .ok { recommendations := recs.take limit
            method := "collaborative"
            message := "Using Collaborative Filtering (SVD)"
            inputTitles := none }

/-! ## Content-based backend (recommend_content_based) -/

/-- The candidate loop body of recommend_content_based for one position i of
the TF-IDF matrix; identical filtering to the collaborative loop with the
TF-IDF row ids and similarities. -/
def contentPrep (objs : Objects) (animeId : ItemId) (inputTitle inputBase : String)
    (aidx : Nat) (i : Nat) : Option (String × ℚ × RecItem) :=
  let recId := objs.tfidfAnimeIds.getD i 0
  if recId = animeId then none
  else
    let recTitle := metaTitleLower objs recId
    let recBase := normalize_title recTitle
    if strIn inputTitle recTitle || strIn recTitle inputTitle || inputBase = recBase then
      none
    else
      let score := objs.tfidfSim aidx i
      some (recBase, score, ⟨recId, displayTitle objs recId, displayGenre objs recId, score⟩)

/-- Python list.index as an Option: position of the first occurrence, none
when absent (the ValueError branch). -/
def listIndex (a : ItemId) : List ItemId → Option Nat
  | [] => none
  | b :: t => if b = a then some 0 else (listIndex a t).map (fun n => n + 1)

/-- recommend_content_based (content_based_service.py lines 31 to 111).
The list .index call that raises ValueError on absence is the listIndex match. -/
def recommend_content_based (animeId : ItemId) (objs : Objects) (limit : Nat) :
    Except HTTPError RecResult :=
  if !objs.hasTfidf then .error ⟨503, "TF-IDF index not loaded"⟩
  else
    match objs.metadata animeId with
    | none => .error ⟨404, "Anime not found in metadata"⟩
    | some inputMeta =>
      let inputTitle := String.mk (lowerChars (inputMeta.title.getD "").data)
      let inputBase := normalize_title inputTitle
      match listIndex animeId objs.tfidfAnimeIds with
      | none => .error ⟨404, "Anime not found in TF-IDF index"⟩
      | some aidx =>
        let top := topIndicesDesc objs.tfidfAnimeIds.length (fun i => objs.tfidfSim aidx i)
        let seen := seenFold (top.map (contentPrep objs animeId inputTitle inputBase aidx))
        let recs := sortRecsDesc (seen.map (fun e => e.2.2))
        .ok { recommendations := recs.take limit
              method := "content_based"
              message := "Using Content-Based Filtering (TF-IDF)"
              inputTitles := none }

/-! ## Hybrid dispatcher (recommend_hybrid) -/

/-- recommend_hybrid (recommendation_service.py lines 84 to 96). -/
def recommend_hybrid (animeId : ItemId) (objs : Objects) (limit : Nat) :
    Except HTTPError RecResult :=
  if memIdx objs animeId then recommend_collaborative animeId objs limit
  else recommend_content_based animeId objs limit

/-! ## Batch aggregator (recommend_batch) -/

/-- The aggregated_scores defaultdict as an insertion-ordered association
list: adding to a present key updates it in place, a fresh key is appended. -/
def alistAdd : List (ItemId × ℚ) → ItemId → ℚ → List (ItemId × ℚ)
  | [], k, v => [(k, v)]
  | (k0, v0) :: rest, k, v =>
      if k0 = k then (k0, v0 + v) :: rest
      else (k0, v0) :: alistAdd rest k v

/-- The inner loop body over positions i for one seed row idx: skip items the
user already has, accumulate the similarity for everything else. -/
def aggStep (objs : Objects) (ids : List ItemId) (idx : Nat)
    (m : List (ItemId × ℚ)) (i : Nat) : List (ItemId × ℚ) :=
  let recId := objs.idxToAnimeId i
  if recId ∈ ids then m else alistAdd m recId (objs.sim idx i)

/-- One full pass over all positions for one seed row. -/
def addSeedScores (objs : Objects) (ids : List ItemId) (idx : Nat)
    (m : List (ItemId × ℚ)) : List (ItemId × ℚ) :=
  (List.range objs.nItems).foldl (aggStep objs ids idx) m

/-- One seed of the aggregation loop of recommend_batch: a seed absent from
the model is skipped, a valid seed contributes one full pass and increments
valid_count. -/
def batchSeedStep (objs : Objects) (ids : List ItemId)
    (p : List (ItemId × ℚ) × Nat) (a : ItemId) : List (ItemId × ℚ) × Nat :=
  match objs.animeIdToIdx a with
  | none => p
  | some idx => (addSeedScores objs ids idx p.1, p.2 + 1)

/-- The aggregation loop of recommend_batch (lines 117 to 134). -/
def batchAggregate (objs : Objects) (ids : List ItemId) : List (ItemId × ℚ) × Nat :=
  ids.foldl (batchSeedStep objs ids) ([], 0)

/-- The per-candidate mean scores after the division loop (lines 139 to 141):
every accumulated sum divided by valid_count. -/
def batchAveraged (objs : Objects) (ids : List ItemId) : List (ItemId × ℚ) :=
  ((batchAggregate objs ids).1).map
    (fun kv => (kv.1, kv.2 / ((batchAggregate objs ids).2 : ℚ)))

/-- input_base_titles (lines 110 to 115): the normalized titles of the seeds
that have metadata, used for sequel suppression. -/
def batchInputBases (objs : Objects) (ids : List ItemId) : List String :=
  ids.filterMap (fun a =>
    (objs.metadata a).map (fun m =>
      normalize_title (String.mk (lowerChars (m.title.getD "").data))))

/-- The filter and dedup loop body of recommend_batch (lines 150 to 178) for
one aggregated candidate: drop it when its base title matches a seed base
title, otherwise key it for franchise dedup.  Unlike the single-seed loops
there is no raw-substring check here. -/
def batchPrep (objs : Objects) (inputBases : List String) (kv : ItemId × ℚ) :
    Option (String × ℚ × RecItem) :=
  let recTitle := metaTitleLower objs kv.1
  let recBase := normalize_title recTitle
  if recBase ∈ inputBases then none
  else
    some (recBase, kv.2, ⟨kv.1, displayTitle objs kv.1, displayGenre objs kv.1, kv.2⟩)

/-- input_titles for the response message (lines 185 to 188). -/
def batchInputTitles (objs : Objects) (ids : List ItemId) : List String :=
  ids.filterMap (fun a =>
    (objs.metadata a).map (fun m => m.title.getD ("Anime #" ++ toString a)))

/-- recommend_batch (recommendation_service.py lines 98 to 195). -/
def recommend_batch (animeIds : List ItemId) (objs : Objects) (limit : Nat) :
    Except HTTPError RecResult :=
  if !objs.hasModel then .error ⟨503, "Model not loaded"⟩
  else
    if (batchAggregate objs animeIds).2 = 0 then
      .error ⟨404, "None of the provided anime IDs found in model"⟩
    else
      let averaged := batchAveraged objs animeIds
      let sortedRecs := (insSortBy (fun a b => decide (b.2 ≤ a.2)) averaged).take 100
      let seen := seenFold (sortedRecs.map (batchPrep objs (batchInputBases objs animeIds)))
      let recs := sortRecsDesc (seen.map (fun e => e.2.2))
      .ok { recommendations := recs.take limit
            method := "batch_collaborative"
            message := "Based on " ++ toString animeIds.length ++ " anime" ++
              (if animeIds.length > 1 then "s" else "") ++ " in your list"
            inputTitles := some ((batchInputTitles objs animeIds).take 5) }

/-- Modelled from the spec: the HTTP boundary route for batch queries is not
present under src (main.py exposes only the single-id route), and spec
sections 4.6 and 7 place the empty-seed-set rejection at that boundary: an
empty ids list is an invalid-input error before the component runs. -/
def recommend_batch_boundary (animeIds : List ItemId) (objs : Objects) (limit : Nat) :
    Except HTTPError RecResult :=
  if animeIds = [] then .error ⟨400, "invalid-input: empty seed set"⟩
  else recommend_batch animeIds objs limit

/-! ## Projections used by the claim statements -/

/-- The recommendations field of a successful response. -/
def okRecs : Except HTTPError RecResult → Option (List RecItem)
  | .ok r => some r.recommendations
  | .error _ => none

/-- The method field of a successful response. -/
def okMethod : Except HTTPError RecResult → Option String
  | .ok r => some r.method
  | .error _ => none

/-- The status code of an error response. -/
def errStatus : Except HTTPError RecResult → Option Nat
  | .error e => some e.status_code
  | .ok _ => none

/-- P holds of the recommendations of every successful response (errors are
vacuous). -/
def onOkRecs (P : List RecItem → Prop) : Except HTTPError RecResult → Prop
  | .ok r => P r.recommendations
  | .error _ => True

/-- The franchise key of a returned candidate: the normalization of its
catalog metadata title (empty string when it has none), exactly the grouping
key the dedup loops compute. -/
def candKey (objs : Objects) (r : RecItem) : String :=
  normalize_title (metaTitleLower objs r.id)

/-- Each seed id repeated twice in place. -/
def dupList (ids : List ItemId) : List ItemId := ids.flatMap (fun a => [a, a])

/-! ## Lemmas about the stable sort -/

theorem insertBy_perm (le : α → α → Bool) (a : α) :
    ∀ l : List α, (insertBy le a l).Perm (a :: l) := by
  intro l
  induction l with
  | nil => simp [insertBy]
  | cons b t ih =>
    by_cases h : le a b = true
    · simp [insertBy, h]
    · rw [insertBy, if_neg h]
      exact (ih.cons b).trans (List.Perm.swap a b t)

theorem insSortBy_perm (le : α → α → Bool) :
    ∀ l : List α, (insSortBy le l).Perm l := by
  intro l
  induction l with
  | nil => simp [insSortBy]
  | cons a t ih =>
    exact (insertBy_perm le a (insSortBy le t)).trans (ih.cons a)

theorem insertBy_pairwise (le : α → α → Bool)
    (htot : ∀ x y, le x y = true ∨ le y x = true)
    (htrans : ∀ x y z, le x y = true → le y z = true → le x z = true)
    (a : α) :
    ∀ l : List α, l.Pairwise (fun x y => le x y = true) →
      (insertBy le a l).Pairwise (fun x y => le x y = true) := by
  intro l
  induction l with
  | nil => simp [insertBy]
  | cons b t ih =>
    intro h
    rcases List.pairwise_cons.mp h with ⟨hb, ht⟩
    by_cases hab : le a b = true
    · simp only [insertBy, hab, if_true]
      refine List.pairwise_cons.mpr ⟨?_, h⟩
      intro x hx
      rcases List.mem_cons.mp hx with rfl | hx
      · exact hab
      · exact htrans a b x hab (hb x hx)
    · simp only [insertBy, hab, if_false]
      refine List.pairwise_cons.mpr ⟨?_, ih ht⟩
      intro x hx
      have hba : le b a = true := (htot a b).resolve_left hab
      rcases List.mem_cons.mp (((insertBy_perm le a t).mem_iff).mp hx) with rfl | hx
      · exact hba
      · exact hb x hx

theorem insSortBy_pairwise (le : α → α → Bool)
    (htot : ∀ x y, le x y = true ∨ le y x = true)
    (htrans : ∀ x y z, le x y = true → le y z = true → le x z = true) :
    ∀ l : List α, (insSortBy le l).Pairwise (fun x y => le x y = true) := by
  intro l
  induction l with
  | nil => simp [insSortBy]
  | cons a t ih => exact insertBy_pairwise le htot htrans a _ ih

theorem sortRecsDesc_perm (l : List RecItem) : (sortRecsDesc l).Perm l :=
  insSortBy_perm _ l

theorem sortRecsDesc_pairwise (l : List RecItem) :
    (sortRecsDesc l).Pairwise (fun a b => b.score ≤ a.score) := by
  have h := insSortBy_pairwise (fun a b : RecItem => decide (b.score ≤ a.score))
    (fun x y => by
      rcases le_total y.score x.score with h | h
      · exact Or.inl (by simpa using h)
      · exact Or.inr (by simpa using h))
    (fun x y z hxy hyz => by
      simp only [decide_eq_true_eq] at *
      exact hyz.trans hxy) l
  exact h.imp (fun hxy => by simpa using hxy)

/-! ## Lemmas about the dedup dict -/

theorem seenUpdate_mem (seen : Seen) (k : String) (v : ℚ) (r : RecItem) :
    ∀ e ∈ seenUpdate seen k v r, e ∈ seen ∨ (e.1 = k ∧ e.2.2 = r) := by
  induction seen with
  | nil =>
    intro e he
    simp only [seenUpdate, List.mem_singleton] at he
    subst he
    exact Or.inr ⟨rfl, rfl⟩
  | cons hd t ih =>
    obtain ⟨k0, s0, r0⟩ := hd
    intro e he
    by_cases hk : k0 = k
    · subst hk
      simp only [seenUpdate, if_pos rfl] at he
      by_cases hs : s0 < v
      · rw [if_pos hs] at he
        rcases List.mem_cons.mp he with rfl | he
        · exact Or.inr ⟨rfl, rfl⟩
        · exact Or.inl (List.mem_cons_of_mem _ he)
      · rw [if_neg hs] at he
        rcases List.mem_cons.mp he with rfl | he
        · exact Or.inl (List.mem_cons_self _ _)
        · exact Or.inl (List.mem_cons_of_mem _ he)
    · simp only [seenUpdate, if_neg hk] at he
      rcases List.mem_cons.mp he with rfl | he
      · exact Or.inl (List.mem_cons_self _ _)
      · rcases ih e he with h | h
        · exact Or.inl (List.mem_cons_of_mem _ h)
        · exact Or.inr h

theorem seenUpdate_keys (seen : Seen) (k : String) (v : ℚ) (r : RecItem) :
    (seenUpdate seen k v r).map (fun e => e.1) =
      if k ∈ seen.map (fun e => e.1) then seen.map (fun e => e.1)
      else seen.map (fun e => e.1) ++ [k] := by
  induction seen with
  | nil => simp [seenUpdate]
  | cons hd t ih =>
    obtain ⟨k0, s0, r0⟩ := hd
    by_cases hk : k0 = k
    · subst hk
      by_cases hs : s0 < v <;> simp [seenUpdate, hs]
    · have hk2 : ¬ k = k0 := fun h => hk h.symm
      by_cases hmem : k ∈ t.map (fun e => e.1) <;>
        simp [seenUpdate, hk, hk2, hmem, ih]

theorem seenFold_go_mem (P : String → RecItem → Prop) :
    ∀ (items : List (Option (String × ℚ × RecItem))) (init : Seen),
      (∀ e ∈ init, P e.1 e.2.2) →
      (∀ o ∈ items, ∀ k v r, o = some (k, v, r) → P k r) →
      ∀ e ∈ items.foldl seenStep init, P e.1 e.2.2 := by
  intro items
  induction items with
  | nil => intro init hinit _ e he; exact hinit e he
  | cons o t ih =>
    intro init hinit hitems e he
    simp only [List.foldl_cons] at he
    refine ih (seenStep init o) ?_ (fun x hx => hitems x (List.mem_cons_of_mem _ hx)) e he
    intro e0 he0
    match o with
    | none => exact hinit e0 he0
    | some (k, v, r) =>
      rcases seenUpdate_mem init k v r e0 he0 with h | ⟨h1, h2⟩
      · exact hinit e0 h
      · have := hitems (some (k, v, r)) (List.mem_cons_self _ _) k v r rfl
        rw [h1, h2]; exact this

theorem seenFold_mem (P : String → RecItem → Prop)
    (items : List (Option (String × ℚ × RecItem)))
    (hitems : ∀ o ∈ items, ∀ k v r, o = some (k, v, r) → P k r) :
    ∀ e ∈ seenFold items, P e.1 e.2.2 :=
  seenFold_go_mem P items [] (by simp) hitems

theorem seenFold_go_keys_nodup :
    ∀ (items : List (Option (String × ℚ × RecItem))) (init : Seen),
      (init.map (fun e => e.1)).Nodup →
      ((items.foldl seenStep init).map (fun e => e.1)).Nodup := by
  intro items
  induction items with
  | nil => intro init h; simpa using h
  | cons o t ih =>
    intro init hinit
    simp only [List.foldl_cons]
    refine ih (seenStep init o) ?_
    match o with
    | none => exact hinit
    | some (k, v, r) =>
      show ((seenUpdate init k v r).map (fun e => e.1)).Nodup
      rw [seenUpdate_keys]
      by_cases hmem : k ∈ init.map (fun e => e.1)
      · simpa [hmem] using hinit
      · simp only [hmem, if_false]
        simp [List.nodup_append, hinit, hmem]

theorem seenFold_keys_nodup (items : List (Option (String × ℚ × RecItem))) :
    ((seenFold items).map (fun e => e.1)).Nodup :=
  seenFold_go_keys_nodup items [] (by simp)

theorem seenFold_all_none :
    ∀ (items : List (Option (String × ℚ × RecItem))),
      (∀ o ∈ items, o = none) → seenFold items = [] := by
  have go : ∀ (items : List (Option (String × ℚ × RecItem))),
      (∀ o ∈ items, o = none) → items.foldl seenStep [] = [] := by
    intro items
    induction items with
    | nil => intro _; rfl
    | cons o t ih =>
      intro h
      have ho := h o (List.mem_cons_self _ _)
      subst ho
      simpa [seenStep] using ih (fun x hx => h x (List.mem_cons_of_mem _ hx))
  exact fun items h => go items h

/-! ## Final-list helper lemmas -/

theorem final_pairwise (l : List RecItem) (lim : Nat) :
    ((sortRecsDesc l).take lim).Pairwise (fun a b => b.score ≤ a.score) :=
  (sortRecsDesc_pairwise l).sublist (List.take_sublist lim _)

theorem final_mem (l : List RecItem) (lim : Nat) :
    ∀ r ∈ (sortRecsDesc l).take lim, r ∈ l := by
  intro r hr
  exact (sortRecsDesc_perm l).mem_iff.mp (List.mem_of_mem_take hr)

theorem final_map_nodup (l : List RecItem) (lim : Nat) (f : RecItem → String)
    (h : (l.map f).Nodup) : (((sortRecsDesc l).take lim).map f).Nodup := by
  have hperm : ((sortRecsDesc l).map f).Perm (l.map f) := (sortRecsDesc_perm l).map f
  have hnodup : ((sortRecsDesc l).map f).Nodup := hperm.nodup_iff.mpr h
  have : ((sortRecsDesc l).take lim).map f = ((sortRecsDesc l).map f).take lim :=
    List.map_take f _ lim
  rw [this]
  exact hnodup.sublist (List.take_sublist lim _)

/-! ## Small helper lemmas for the claims -/

theorem chInfix_nil (l : List Char) : chInfix [] l = true := by
  cases l <;> simp [chInfix, List.isPrefixOf]

theorem strIn_empty (b : String) : strIn "" b = true := chInfix_nil b.data

theorem metaTitleLower_none (objs : Objects) (rid : ItemId)
    (h : objs.metadata rid = none) : metaTitleLower objs rid = "" := by
  simp [metaTitleLower, h, lowerChars]

theorem collabPrep_empty_title (objs : Objects) (animeId : ItemId)
    (base : String) (idx i : Nat) :
    collabPrep objs animeId "" base idx i = none := by
  simp [collabPrep, strIn_empty]

theorem listIndex_isSome_of_mem (a : ItemId) :
    ∀ (l : List ItemId), a ∈ l → ∃ j, listIndex a l = some j := by
  intro l h
  induction l with
  | nil => cases h
  | cons b t ih =>
    by_cases hb : b = a
    · exact ⟨0, by simp [listIndex, hb]⟩
    · rcases List.mem_cons.mp h with rfl | hmem
      · exact absurd rfl hb
      · rcases ih hmem with ⟨j, hj⟩
        exact ⟨j + 1, by simp [listIndex, hb, hj]⟩

theorem batchAggregate_go_const (objs : Objects) :
    ∀ (ids rest : List ItemId) (p : List (ItemId × ℚ) × Nat),
      (∀ a ∈ rest, objs.animeIdToIdx a = none) →
      rest.foldl (batchSeedStep objs ids) p = p := by
  intro ids rest
  induction rest with
  | nil => intro p _; rfl
  | cons a t ih =>
    intro p h
    have ha := h a (List.mem_cons_self _ _)
    simp only [List.foldl_cons, batchSeedStep, ha]
    exact ih p (fun x hx => h x (List.mem_cons_of_mem _ hx))

theorem batchAggregate_all_invalid (objs : Objects) (ids : List ItemId)
    (h : ∀ a ∈ ids, objs.animeIdToIdx a = none) :
    batchAggregate objs ids = ([], 0) :=
  batchAggregate_go_const objs ids ids ([], 0) h

/-! ## Claim C8 -/

/-- Claim C8 (code bug): the Franchise Normalizer is not idempotent.  The
input string 5 4 normalizes to 5 (the trailing-number rule strips one layer),
and 5 normalizes further to the empty string, so applying the normalizer
twice differs from applying it once.  The spec itself directs that such
violations be treated as bugs to document. -/
theorem normalize_title_not_idempotent :
    normalize_title (normalize_title "5 4") ≠ normalize_title "5 4" := by decide

/-! ## Claim C7 -/

/-- Claim C7: an empty seed set is rejected at the boundary with the
invalid-input error (status 400), and a non-empty seed set none of whose ids
has a Latent Vector reaches the component and is rejected with the not-found
error (status 404). -/
theorem batch_empty_invalid_input_and_unknown_not_found
    (objs : Objects) (ids : List ItemId) (lim : Nat)
    (hm : objs.hasModel = true) (hne : ids ≠ [])
    (hall : ∀ a ∈ ids, objs.animeIdToIdx a = none) :
    recommend_batch_boundary [] objs lim =
      .error ⟨400, "invalid-input: empty seed set"⟩ ∧
    recommend_batch_boundary ids objs lim =
      .error ⟨404, "None of the provided anime IDs found in model"⟩ := by
  constructor
  · simp [recommend_batch_boundary]
  · rw [recommend_batch_boundary, if_neg hne]
    rw [recommend_batch, hm, batchAggregate_all_invalid objs ids hall]
    simp

/-- Witness for C7 at a concrete state: one unknown seed id 42 against a
loaded model that only knows id 1. -/
def witObjs7 : Objects :=
  { hasModel := true
    animeIdToIdx := fun a => if a = 1 then some 0 else none
    idxToAnimeId := fun _ => 1
    nItems := 1
    sim := fun _ _ => 1
    metadata := fun _ => none
    hasTfidf := false
    tfidfAnimeIds := []
    tfidfSim := fun _ _ => 0 }

theorem batch_empty_invalid_input_and_unknown_not_found_witness :
    recommend_batch_boundary [] witObjs7 20 =
      .error ⟨400, "invalid-input: empty seed set"⟩ ∧
    recommend_batch_boundary [42] witObjs7 20 =
      .error ⟨404, "None of the provided anime IDs found in model"⟩ :=
  batch_empty_invalid_input_and_unknown_not_found witObjs7 [42] 20 rfl
    (by decide) (by decide)

/-! ## Claim C9 -/

/-- Claim C9: a seed id that is in the Latent Factor Index but has no catalog
metadata entry succeeds through the hybrid path and returns an empty
recommendations list: its resolved title is the empty string, the empty
string is a substring of every candidate title, so the sequel filter drops
every candidate. -/
theorem collaborative_no_metadata_empty
    (objs : Objects) (animeId : ItemId) (idx : Nat) (lim : Nat)
    (hm : objs.hasModel = true)
    (hidx : objs.animeIdToIdx animeId = some idx)
    (hmeta : objs.metadata animeId = none) :
    recommend_hybrid animeId objs lim =
      .ok { recommendations := []
            method := "collaborative"
            message := "Using Collaborative Filtering (SVD)"
            inputTitles := none } := by
  have hmem : memIdx objs animeId = true := by simp [memIdx, hm, hidx]
  rw [recommend_hybrid, if_pos hmem]
  rw [recommend_collaborative, hm]
  simp only [Bool.not_true, Bool.false_eq_true, if_false, hidx]
  rw [metaTitleLower_none objs animeId hmeta]
  have hmap :
      (topIndicesDesc objs.nItems (fun i => objs.sim idx i)).map
        (collabPrep objs animeId "" (normalize_title "") idx) =
      (topIndicesDesc objs.nItems (fun i => objs.sim idx i)).map
        (fun _ => (none : Option (String × ℚ × RecItem))) :=
    List.map_congr_left (fun i _ => collabPrep_empty_title objs animeId _ idx i)
  rw [hmap]
  rw [seenFold_all_none _ (by simp)]
  simp [sortRecsDesc, insSortBy]

/-- Witness for C9: id 7 is position 0 of a one-item model with no catalog. -/
def witObjs9 : Objects :=
  { hasModel := true
    animeIdToIdx := fun a => if a = 7 then some 0 else none
    idxToAnimeId := fun _ => 7
    nItems := 1
    sim := fun _ _ => 1
    metadata := fun _ => none
    hasTfidf := false
    tfidfAnimeIds := []
    tfidfSim := fun _ _ => 0 }

theorem collaborative_no_metadata_empty_witness :
    recommend_hybrid 7 witObjs9 10 =
      .ok { recommendations := []
            method := "collaborative"
            message := "Using Collaborative Filtering (SVD)"
            inputTitles := none } :=
  collaborative_no_metadata_empty witObjs9 7 0 10 rfl (by decide) rfl

/-! ## Claim C2 -/

/-- Claim C2: the dispatch rule of recommend.  An id present in the Latent
Factor Index is served by the collaborative backend exclusively and the
response method is collaborative; any other id is served by the content-based
backend, and when it has catalog metadata and a row in the lexical index the
response method is content_based. -/
theorem hybrid_dispatch_rule (objs : Objects) (animeId : ItemId) (lim : Nat) :
    (memIdx objs animeId = true →
      recommend_hybrid animeId objs lim = recommend_collaborative animeId objs lim ∧
      okMethod (recommend_hybrid animeId objs lim) = some "collaborative") ∧
    (memIdx objs animeId = false →
      recommend_hybrid animeId objs lim = recommend_content_based animeId objs lim ∧
      (objs.hasTfidf = true → objs.metadata animeId ≠ none →
        animeId ∈ objs.tfidfAnimeIds →
        okMethod (recommend_hybrid animeId objs lim) = some "content_based")) := by
  constructor
  · intro h
    have hdisp : recommend_hybrid animeId objs lim = recommend_collaborative animeId objs lim := by
      rw [recommend_hybrid, if_pos h]
    refine ⟨hdisp, ?_⟩
    rw [hdisp]
    have hparts : objs.hasModel = true ∧ (objs.animeIdToIdx animeId).isSome = true := by
      simpa [memIdx] using h
    have hm : objs.hasModel = true := hparts.1
    have hsome : (objs.animeIdToIdx animeId).isSome = true := hparts.2
    rcases Option.isSome_iff_exists.mp hsome with ⟨idx, hidx⟩
    rw [recommend_collaborative, hm]
    simp only [Bool.not_true, Bool.false_eq_true, if_false, hidx]
    rfl
  · intro h
    have hdisp : recommend_hybrid animeId objs lim = recommend_content_based animeId objs lim := by
      rw [recommend_hybrid, h]
      simp
    refine ⟨hdisp, ?_⟩
    intro htf hmeta hmem
    rw [hdisp]
    rcases Option.ne_none_iff_exists.mp hmeta with ⟨m, hm⟩
    rcases listIndex_isSome_of_mem animeId objs.tfidfAnimeIds hmem with ⟨j, hj⟩
    rw [recommend_content_based, htf]
    simp only [Bool.not_true, Bool.false_eq_true, if_false, ← hm, hj]
    rfl

/-- Witness state for C2: id 1 is in the model, id 2 only in the catalog and
the lexical index. -/
def witObjs2 : Objects :=
  { hasModel := true
    animeIdToIdx := fun a => if a = 1 then some 0 else none
    idxToAnimeId := fun _ => 1
    nItems := 1
    sim := fun _ _ => 1
    metadata := fun a =>
      if a = 1 then some ⟨some "alpha", some "action"⟩
      else if a = 2 then some ⟨some "beta", some "drama"⟩
      else none
    hasTfidf := true
    tfidfAnimeIds := [1, 2]
    tfidfSim := fun _ _ => 1 }

theorem hybrid_dispatch_rule_witness :
    okMethod (recommend_hybrid 1 witObjs2 10) = some "collaborative" ∧
    okMethod (recommend_hybrid 2 witObjs2 10) = some "content_based" :=
  ⟨((hybrid_dispatch_rule witObjs2 1 10).1 (by decide)).2,
   ((hybrid_dispatch_rule witObjs2 2 10).2 (by decide)).2 rfl (by decide) (by decide)⟩

/-! ## What a kept candidate of each loop looks like -/

theorem collabPrep_some (objs : Objects) (animeId : ItemId) (it ib : String)
    (idx i : Nat) (k : String) (v : ℚ) (r : RecItem)
    (h : collabPrep objs animeId it ib idx i = some (k, v, r)) :
    r.id = objs.idxToAnimeId i ∧ objs.idxToAnimeId i ≠ animeId ∧
      k = candKey objs r := by
  simp only [collabPrep] at h
  split_ifs at h with h1 h2
  simp only [Option.some.injEq, Prod.mk.injEq] at h
  obtain ⟨hk, _, hr⟩ := h
  subst hr
  exact ⟨rfl, h1, hk.symm⟩

theorem contentPrep_some (objs : Objects) (animeId : ItemId) (it ib : String)
    (aidx i : Nat) (k : String) (v : ℚ) (r : RecItem)
    (h : contentPrep objs animeId it ib aidx i = some (k, v, r)) :
    r.id = objs.tfidfAnimeIds.getD i 0 ∧ objs.tfidfAnimeIds.getD i 0 ≠ animeId ∧
      k = candKey objs r := by
  simp only [contentPrep] at h
  split_ifs at h with h1 h2
  simp only [Option.some.injEq, Prod.mk.injEq] at h
  obtain ⟨hk, _, hr⟩ := h
  subst hr
  exact ⟨rfl, h1, hk.symm⟩

theorem batchPrep_some (objs : Objects) (inputBases : List String)
    (kv : ItemId × ℚ) (k : String) (v : ℚ) (r : RecItem)
    (h : batchPrep objs inputBases kv = some (k, v, r)) :
    r.id = kv.1 ∧ k = candKey objs r ∧ k ∉ inputBases := by
  simp only [batchPrep] at h
  split_ifs at h with h1
  simp only [Option.some.injEq, Prod.mk.injEq] at h
  obtain ⟨hk, _, hr⟩ := h
  subst hr
  refine ⟨rfl, hk.symm, ?_⟩
  rw [← hk]
  exact h1

/-! ## Keys of the aggregated-score dict never come from the seed set -/

theorem alistAdd_keys_eq (m : List (ItemId × ℚ)) (k : ItemId) (v : ℚ) :
    (alistAdd m k v).map (fun e => e.1) =
      if k ∈ m.map (fun e => e.1) then m.map (fun e => e.1)
      else m.map (fun e => e.1) ++ [k] := by
  induction m with
  | nil => simp [alistAdd]
  | cons hd t ih =>
    obtain ⟨k0, v0⟩ := hd
    by_cases h : k0 = k
    · subst h
      simp [alistAdd]
    · have hne : ¬ k = k0 := fun hh => h hh.symm
      by_cases hmem : k ∈ t.map (fun e => e.1) <;>
        simp [alistAdd, h, hne, hmem, ih]

theorem alistAdd_keys (m : List (ItemId × ℚ)) (k : ItemId) (v : ℚ) :
    ∀ x ∈ (alistAdd m k v).map (fun e => e.1),
      x = k ∨ x ∈ m.map (fun e => e.1) := by
  intro x hx
  rw [alistAdd_keys_eq] at hx
  by_cases hmem : k ∈ m.map (fun e => e.1)
  · rw [if_pos hmem] at hx
    exact Or.inr hx
  · rw [if_neg hmem] at hx
    rcases List.mem_append.mp hx with h1 | h1
    · exact Or.inr h1
    · exact Or.inl (by simpa using h1)

theorem aggPass_keys (objs : Objects) (ids : List ItemId) (idx : Nat) :
    ∀ (L : List Nat) (m : List (ItemId × ℚ)),
      ∀ x ∈ (L.foldl (aggStep objs ids idx) m).map (fun e => e.1),
        x ∈ m.map (fun e => e.1) ∨ x ∉ ids := by
  intro L
  induction L with
  | nil => intro m x hx; exact Or.inl hx
  | cons i t ih =>
    intro m x hx
    simp only [List.foldl_cons] at hx
    rcases ih _ x hx with h1 | h1
    · simp only [aggStep] at h1
      by_cases hin : objs.idxToAnimeId i ∈ ids
      · rw [if_pos hin] at h1
        exact Or.inl h1
      · rw [if_neg hin] at h1
        rcases alistAdd_keys m _ _ x h1 with rfl | h2
        · exact Or.inr hin
        · exact Or.inl h2
    · exact Or.inr h1

theorem batchAggregate_go_keys (objs : Objects) (ids : List ItemId) :
    ∀ (rest : List ItemId) (p : List (ItemId × ℚ) × Nat),
      (∀ x ∈ p.1.map (fun e => e.1), x ∉ ids) →
      ∀ x ∈ ((rest.foldl (batchSeedStep objs ids) p).1).map (fun e => e.1),
        x ∉ ids := by
  intro rest
  induction rest with
  | nil => exact fun p h => h
  | cons a t ih =>
    intro p hp
    simp only [List.foldl_cons]
    refine ih _ ?_
    intro x hx
    simp only [batchSeedStep] at hx
    rcases hcase : objs.animeIdToIdx a with _ | idx
    · rw [hcase] at hx
      exact hp x hx
    · rw [hcase] at hx
      rcases aggPass_keys objs ids idx (List.range objs.nItems) p.1 x hx with h1 | h1
      · exact hp x h1
      · exact h1

theorem batchAggregate_keys (objs : Objects) (ids : List ItemId) :
    ∀ x ∈ ((batchAggregate objs ids).1).map (fun e => e.1), x ∉ ids :=
  batchAggregate_go_keys objs ids ids ([], 0) (by simp)

/-- Membership in the post-sort top-100 aggregated list implies the key is not
a seed id. -/
theorem mem_sorted_averaged_not_seed (objs : Objects) (ids : List ItemId)
    (kv : ItemId × ℚ)
    (h : kv ∈ (insSortBy (fun a b => decide (b.2 ≤ a.2))
      (batchAveraged objs ids)).take 100) :
    kv.1 ∉ ids := by
  have h1 : kv ∈ batchAveraged objs ids :=
    (insSortBy_perm _ _).mem_iff.mp (List.mem_of_mem_take h)
  rcases List.mem_map.mp h1 with ⟨kv0, hkv0, heq⟩
  have hfst : kv.1 = kv0.1 := by rw [← heq]
  rw [hfst]
  exact batchAggregate_keys objs ids kv0.1
    (List.mem_map_of_mem (fun e => e.1) hkv0)

/-! ## Claim C5 -/

/-- Claim C5: in every successful response of recommend (the hybrid entry
point) and of recommend_batch, the scores of the returned recommendations are
monotonically non-increasing from the first entry to the last. -/
theorem response_scores_monotone (objs : Objects) (animeId : ItemId)
    (ids : List ItemId) (lim lim2 : Nat) :
    onOkRecs (fun l => l.Pairwise (fun a b => b.score ≤ a.score))
      (recommend_hybrid animeId objs lim) ∧
    onOkRecs (fun l => l.Pairwise (fun a b => b.score ≤ a.score))
      (recommend_batch ids objs lim2) := by
  constructor
  · rw [recommend_hybrid]
    split
    · rw [recommend_collaborative]
      split
      · exact trivial
      · split
        · exact trivial
        · exact final_pairwise _ _
    · rw [recommend_content_based]
      split
      · exact trivial
      · split
        · exact trivial
        · split
          · exact trivial
          · exact final_pairwise _ _
  · rw [recommend_batch]
    split
    · exact trivial
    · split
      · exact trivial
      · exact final_pairwise _ _

/-! ## Claim C4 -/

/-- Claim C4: recommend never returns a candidate whose id is the query id,
and recommend_batch never returns a candidate whose id is in the seed set.
(The single-seed exclusion holds on both dispatch paths, in particular for
every id present in the Latent Factor Index.) -/
theorem response_excludes_seeds (objs : Objects) (animeId : ItemId)
    (ids : List ItemId) (lim lim2 : Nat) :
    onOkRecs (fun l => ∀ r ∈ l, r.id ≠ animeId)
      (recommend_hybrid animeId objs lim) ∧
    onOkRecs (fun l => ∀ r ∈ l, r.id ∉ ids)
      (recommend_batch ids objs lim2) := by
  constructor
  · rw [recommend_hybrid]
    split
    · rw [recommend_collaborative]
      split
      · exact trivial
      · split
        · exact trivial
        · intro r hr
          rcases List.mem_map.mp (final_mem _ _ r hr) with ⟨e, he, hre⟩
          have hP := seenFold_mem (fun _ rec => rec.id ≠ animeId) _ ?_ e he
          · rw [← hre]; exact hP
          · intro o ho kk vv rr hoeq
            rcases List.mem_map.mp ho with ⟨i, _, hoi⟩
            rw [← hoi] at hoeq
            rcases collabPrep_some _ _ _ _ _ _ _ _ _ hoeq with ⟨hid, hne, _⟩
            rw [hid]; exact hne
    · rw [recommend_content_based]
      split
      · exact trivial
      · split
        · exact trivial
        · split
          · exact trivial
          · intro r hr
            rcases List.mem_map.mp (final_mem _ _ r hr) with ⟨e, he, hre⟩
            have hP := seenFold_mem (fun _ rec => rec.id ≠ animeId) _ ?_ e he
            · rw [← hre]; exact hP
            · intro o ho kk vv rr hoeq
              rcases List.mem_map.mp ho with ⟨i, _, hoi⟩
              rw [← hoi] at hoeq
              rcases contentPrep_some _ _ _ _ _ _ _ _ _ hoeq with ⟨hid, hne, _⟩
              rw [hid]; exact hne
  · rw [recommend_batch]
    split
    · exact trivial
    · split
      · exact trivial
      · intro r hr
        rcases List.mem_map.mp (final_mem _ _ r hr) with ⟨e, he, hre⟩
        have hP := seenFold_mem (fun _ rec => rec.id ∉ ids) _ ?_ e he
        · rw [← hre]; exact hP
        · intro o ho kk vv rr hoeq
          rcases List.mem_map.mp ho with ⟨kv, hkv, hokv⟩
          rw [← hokv] at hoeq
          rcases batchPrep_some _ _ _ _ _ _ hoeq with ⟨hid, _, _⟩
          rw [hid]
          exact mem_sorted_averaged_not_seed objs ids kv hkv

/-! ## Claim C3, amended -/

/-- The whole tail of each pipeline: when every kept candidate is keyed by its
own franchise key, the final sorted, truncated list has pairwise-distinct
franchise keys. -/
theorem seenFold_final_keys_nodup (objs : Objects)
    (items : List (Option (String × ℚ × RecItem)))
    (hitems : ∀ o ∈ items, ∀ k v r, o = some (k, v, r) → k = candKey objs r)
    (lim : Nat) :
    (((sortRecsDesc ((seenFold items).map (fun e => e.2.2))).take lim).map
      (candKey objs)).Nodup := by
  refine final_map_nodup _ _ _ ?_
  rw [List.map_map]
  have hEq : (seenFold items).map ((candKey objs) ∘ (fun e => e.2.2)) =
      (seenFold items).map (fun e => e.1) :=
    List.map_congr_left (fun e he =>
      (seenFold_mem (fun kk rec => kk = candKey objs rec) items hitems e he).symm)
  rw [hEq]
  exact seenFold_keys_nodup items

/-- Claim C3 (amended): all candidates of one successful response of
recommend or recommend_batch carry pairwise-distinct franchise keys, where
the franchise key of a candidate is the normalization of its catalog metadata
title (the empty string when it has no metadata) - exactly the grouping key
the dedup loop computes.  The original phrasing over the displayed title
fails only for placeholder-titled entries of recommend_batch (see the
counterexample). -/
theorem response_franchise_keys_distinct (objs : Objects) (animeId : ItemId)
    (ids : List ItemId) (lim lim2 : Nat) :
    onOkRecs (fun l => (l.map (candKey objs)).Nodup)
      (recommend_hybrid animeId objs lim) ∧
    onOkRecs (fun l => (l.map (candKey objs)).Nodup)
      (recommend_batch ids objs lim2) := by
  constructor
  · rw [recommend_hybrid]
    split
    · rw [recommend_collaborative]
      split
      · exact trivial
      · split
        · exact trivial
        · refine seenFold_final_keys_nodup objs _ ?_ lim
          intro o ho kk vv rr hoeq
          rcases List.mem_map.mp ho with ⟨i, _, hoi⟩
          rw [← hoi] at hoeq
          exact (collabPrep_some _ _ _ _ _ _ _ _ _ hoeq).2.2
    · rw [recommend_content_based]
      split
      · exact trivial
      · split
        · exact trivial
        · split
          · exact trivial
          · refine seenFold_final_keys_nodup objs _ ?_ lim
            intro o ho kk vv rr hoeq
            rcases List.mem_map.mp ho with ⟨i, _, hoi⟩
            rw [← hoi] at hoeq
            exact (contentPrep_some _ _ _ _ _ _ _ _ _ hoeq).2.2
  · rw [recommend_batch]
    split
    · exact trivial
    · split
      · exact trivial
      · refine seenFold_final_keys_nodup objs _ ?_ lim2
        intro o ho kk vv rr hoeq
        rcases List.mem_map.mp ho with ⟨kv, _, hokv⟩
        rw [← hokv] at hoeq
        exact (batchPrep_some _ _ _ _ _ _ hoeq).2.1

/-! ## Claim C6, amended -/

/-- Claim C6 (amended): the post-aggregation seed filter of recommend_batch
applies only the franchise-key check: every returned candidate has a
franchise key outside the set of normalized seed titles.  The raw-substring
safety net of the Dedup and Sequel Filter is not applied in recommend_batch
(see the counterexample where a candidate whose raw title is a substring of a
seed title survives). -/
theorem batch_seed_filter_key_only (objs : Objects) (ids : List ItemId)
    (lim : Nat) :
    onOkRecs (fun l => ∀ r ∈ l, candKey objs r ∉ batchInputBases objs ids)
      (recommend_batch ids objs lim) := by
  rw [recommend_batch]
  split
  · exact trivial
  · split
    · exact trivial
    · intro r hr
      rcases List.mem_map.mp (final_mem _ _ r hr) with ⟨e, he, hre⟩
      have hP := seenFold_mem
        (fun kk rec => kk = candKey objs rec ∧ kk ∉ batchInputBases objs ids)
        _ ?_ e he
      · rw [← hre, ← hP.1]
        exact hP.2
      · intro o ho kk vv rr hoeq
        rcases List.mem_map.mp ho with ⟨kv, _, hokv⟩
        rw [← hokv] at hoeq
        rcases batchPrep_some _ _ _ _ _ _ hoeq with ⟨_, hk, hnotin⟩
        exact ⟨hk, hnotin⟩

/-- Counterexample state for C3: the model knows ids 1 (the seed, title
seedshow), 2 (title anime #) and 3 (no catalog metadata at all, so it is
returned under the placeholder title Anime #3). -/
def cex3Objs : Objects :=
  { hasModel := true
    animeIdToIdx := fun a =>
      if a = 1 then some 0 else if a = 2 then some 1 else
      if a = 3 then some 2 else none
    idxToAnimeId := fun i => if i = 0 then 1 else if i = 1 then 2 else 3
    nItems := 3
    sim := fun _ b => if b = 1 then 2 else if b = 2 then 1 else 3
    metadata := fun a =>
      if a = 1 then some ⟨some "seedshow", none⟩
      else if a = 2 then some ⟨some "anime #", none⟩
      else none
    hasTfidf := false
    tfidfAnimeIds := []
    tfidfSim := fun _ _ => 0 }

/-- Claim C3, counterexample to the original phrasing: this successful
recommend_batch response returns two distinct entries (ids 2 and 3) whose
titles normalize to the same string anime #.  Entry 3 has no catalog
metadata, so its dedup key is the empty string while its displayed title is
the placeholder Anime #3; entry 2 is cataloged as anime #.  The franchise
keys differ, so both survive, yet the displayed titles share one
normalization. -/
theorem response_titles_normalize_clash_cex :
    okRecs (recommend_batch [1] cex3Objs 20) =
      some [⟨2, "anime #", "Unknown", 2⟩, ⟨3, "Anime #3", "Unknown", 1⟩] ∧
    normalize_title "anime #" = normalize_title "Anime #3" := by
  have h1 : batchAggregate cex3Objs [1] = ([(2, 2), (3, 1)], 1) := by decide
  have h2 : batchAveraged cex3Objs [1] = [(2, 2), (3, 1)] := by
    rw [batchAveraged, h1]
    norm_num
  constructor
  · rw [recommend_batch, h2, h1]
    decide
  · decide

/-- Counterexample state for C6: the seed id 1 is titled x: y and the only
candidate id 2 is titled y, whose raw title is a substring of the raw seed
title. -/
def cex6Objs : Objects :=
  { hasModel := true
    animeIdToIdx := fun a => if a = 1 then some 0 else if a = 2 then some 1 else none
    idxToAnimeId := fun i => if i = 0 then 1 else 2
    nItems := 2
    sim := fun _ b => if b = 1 then 2 else 1
    metadata := fun a =>
      if a = 1 then some ⟨some "x: y", none⟩
      else if a = 2 then some ⟨some "y", none⟩
      else none
    hasTfidf := false
    tfidfAnimeIds := []
    tfidfSim := fun _ _ => 0 }

/-- Claim C6, counterexample to the original phrasing: the raw lower-cased
title of candidate 2 (y) is a substring of the raw lower-cased seed title
(x: y), so the claimed substring check would suppress it, yet recommend_batch
returns it: only the franchise-key check runs there, and normalize of y (y)
differs from normalize of x: y (x). -/
theorem batch_substring_check_absent_cex :
    strIn (metaTitleLower cex6Objs 2) (metaTitleLower cex6Objs 1) = true ∧
    okRecs (recommend_batch [1] cex6Objs 20) =
      some [⟨2, "y", "Unknown", 2⟩] := by
  have h1 : batchAggregate cex6Objs [1] = ([(2, 2)], 1) := by decide
  have h2 : batchAveraged cex6Objs [1] = [(2, 2)] := by
    rw [batchAveraged, h1]
    norm_num
  constructor
  · decide
  · rw [recommend_batch, h2, h1]
    decide

/-! ## Values of the aggregated-score dict

The accumulated value of every key equals the sum of the similarity
contributions of the processed positions and seeds. -/

/-- The contribution of the positions L of one seed row idx to candidate k. -/
def passSum (objs : Objects) (ids : List ItemId) (idx : Nat) (L : List Nat)
    (k : ItemId) : ℚ :=
  (L.map (fun i =>
    if objs.idxToAnimeId i = k ∧ k ∉ ids then objs.sim idx i else 0)).sum

theorem passSum_nil (objs : Objects) (ids : List ItemId) (idx : Nat)
    (k : ItemId) : passSum objs ids idx [] k = 0 := rfl

theorem passSum_cons (objs : Objects) (ids : List ItemId) (idx : Nat)
    (i : Nat) (t : List Nat) (k : ItemId) :
    passSum objs ids idx (i :: t) k =
      (if objs.idxToAnimeId i = k ∧ k ∉ ids then objs.sim idx i else 0) +
        passSum objs ids idx t k := by
  simp [passSum]

theorem alistAdd_values (T : ItemId → ℚ) (k : ItemId) (v : ℚ) :
    ∀ (m : List (ItemId × ℚ)),
      (∀ e ∈ m, e.2 = T e.1) →
      (k ∉ m.map (fun e => e.1) → T k = 0) →
      (m.map (fun e => e.1)).Nodup →
      ∀ e ∈ alistAdd m k v, e.2 = T e.1 + (if e.1 = k then v else 0) := by
  intro m
  induction m with
  | nil =>
    intro _ hTk _ e he
    simp only [alistAdd, List.mem_singleton] at he
    subst he
    simp [hTk (by simp)]
  | cons hd t ih =>
    obtain ⟨k0, v0⟩ := hd
    intro hT hTk hnodup e he
    rw [List.map_cons] at hnodup
    rcases List.nodup_cons.mp hnodup with ⟨hk0nt, hnt⟩
    by_cases h : k0 = k
    · subst h
      simp only [alistAdd, if_pos rfl] at he
      rcases List.mem_cons.mp he with rfl | he
      · have hv0 : v0 = T k0 := by simpa using hT (k0, v0) (List.mem_cons_self _ _)
        simp [hv0]
      · have he2 := hT e (List.mem_cons_of_mem _ he)
        have hne : e.1 ≠ k0 := by
          intro hcontra
          exact hk0nt (hcontra ▸ List.mem_map_of_mem (fun x => x.1) he)
        simp [he2, hne]
    · simp only [alistAdd, if_neg h] at he
      rcases List.mem_cons.mp he with rfl | he
      · have hv0 : v0 = T k0 := by simpa using hT (k0, v0) (List.mem_cons_self _ _)
        have hne : ¬ (k0 = k) := h
        simp [hv0, hne]
      · refine ih (fun x hx => hT x (List.mem_cons_of_mem _ hx)) ?_ hnt e he
        intro hknt
        refine hTk ?_
        simp only [List.map_cons, List.mem_cons]
        rintro (hk | hk)
        · exact h hk.symm
        · exact hknt hk

theorem alistAdd_keys_nodup (m : List (ItemId × ℚ)) (k : ItemId) (v : ℚ)
    (h : (m.map (fun e => e.1)).Nodup) :
    ((alistAdd m k v).map (fun e => e.1)).Nodup := by
  rw [alistAdd_keys_eq]
  by_cases hmem : k ∈ m.map (fun e => e.1)
  · rwa [if_pos hmem]
  · rw [if_neg hmem]
    simp [List.nodup_append, h, hmem]

theorem alistAdd_keys_mono (m : List (ItemId × ℚ)) (k : ItemId) (v : ℚ)
    (x : ItemId) (h : x ∈ m.map (fun e => e.1)) :
    x ∈ (alistAdd m k v).map (fun e => e.1) := by
  rw [alistAdd_keys_eq]
  by_cases hmem : k ∈ m.map (fun e => e.1) <;> simp [hmem, h]

theorem alistAdd_key_self (m : List (ItemId × ℚ)) (k : ItemId) (v : ℚ) :
    k ∈ (alistAdd m k v).map (fun e => e.1) := by
  rw [alistAdd_keys_eq]
  by_cases hmem : k ∈ m.map (fun e => e.1) <;> simp [hmem]

theorem aggPass_keys_nodup (objs : Objects) (ids : List ItemId) (idx : Nat) :
    ∀ (L : List Nat) (m : List (ItemId × ℚ)),
      (m.map (fun e => e.1)).Nodup →
      ((L.foldl (aggStep objs ids idx) m).map (fun e => e.1)).Nodup := by
  intro L
  induction L with
  | nil => exact fun m h => h
  | cons i t ih =>
    intro m h
    simp only [List.foldl_cons]
    refine ih _ ?_
    simp only [aggStep]
    by_cases hin : objs.idxToAnimeId i ∈ ids
    · rwa [if_pos hin]
    · rw [if_neg hin]
      exact alistAdd_keys_nodup m _ _ h

theorem aggPass_keys_mono (objs : Objects) (ids : List ItemId) (idx : Nat) :
    ∀ (L : List Nat) (m : List (ItemId × ℚ)) (x : ItemId),
      x ∈ m.map (fun e => e.1) →
      x ∈ (L.foldl (aggStep objs ids idx) m).map (fun e => e.1) := by
  intro L
  induction L with
  | nil => exact fun m x h => h
  | cons i t ih =>
    intro m x h
    simp only [List.foldl_cons]
    refine ih _ x ?_
    simp only [aggStep]
    by_cases hin : objs.idxToAnimeId i ∈ ids
    · rwa [if_pos hin]
    · rw [if_neg hin]
      exact alistAdd_keys_mono m _ _ x h

theorem aggPass_hit_mem (objs : Objects) (ids : List ItemId) (idx : Nat) :
    ∀ (L : List Nat) (m : List (ItemId × ℚ)) (i : Nat), i ∈ L →
      objs.idxToAnimeId i ∉ ids →
      objs.idxToAnimeId i ∈ (L.foldl (aggStep objs ids idx) m).map (fun e => e.1) := by
  intro L
  induction L with
  | nil => intro m i hi; cases hi
  | cons j t ih =>
    intro m i hi hnot
    simp only [List.foldl_cons]
    rcases List.mem_cons.mp hi with rfl | hi
    · refine aggPass_keys_mono objs ids idx t _ _ ?_
      simp only [aggStep]
      rw [if_neg hnot]
      exact alistAdd_key_self _ _ _
    · exact ih _ i hi hnot

theorem aggPass_values (objs : Objects) (ids : List ItemId) (idx : Nat) :
    ∀ (L : List Nat) (m : List (ItemId × ℚ)) (T : ItemId → ℚ),
      (∀ e ∈ m, e.2 = T e.1) →
      (∀ k, k ∉ m.map (fun e => e.1) → T k = 0) →
      (m.map (fun e => e.1)).Nodup →
      ∀ e ∈ L.foldl (aggStep objs ids idx) m,
        e.2 = T e.1 + passSum objs ids idx L e.1 := by
  intro L
  induction L with
  | nil =>
    intro m T hT _ _ e he
    simpa [passSum_nil] using hT e he
  | cons i t ih =>
    intro m T hT hT0 hnodup e he
    simp only [List.foldl_cons] at he
    by_cases hin : objs.idxToAnimeId i ∈ ids
    · have hstep : aggStep objs ids idx m i = m := by
        simp only [aggStep]
        rw [if_pos hin]
      rw [hstep] at he
      have hrec := ih m T hT hT0 hnodup e he
      rw [hrec, passSum_cons]
      have hterm :
          (if objs.idxToAnimeId i = e.1 ∧ e.1 ∉ ids then objs.sim idx i else 0) = 0 := by
        rw [if_neg]
        rintro ⟨h1, h2⟩
        exact h2 (h1 ▸ hin)
      rw [hterm, zero_add]
    · have hstep : aggStep objs ids idx m i =
          alistAdd m (objs.idxToAnimeId i) (objs.sim idx i) := by
        simp only [aggStep]
        rw [if_neg hin]
      rw [hstep] at he
      have hvals := alistAdd_values T (objs.idxToAnimeId i) (objs.sim idx i) m hT
        (hT0 _) hnodup
      have hnodup2 := alistAdd_keys_nodup m (objs.idxToAnimeId i) (objs.sim idx i) hnodup
      have hT0n : ∀ k,
          k ∉ (alistAdd m (objs.idxToAnimeId i) (objs.sim idx i)).map (fun e => e.1) →
          T k + (if k = objs.idxToAnimeId i then objs.sim idx i else 0) = 0 := by
        intro k hk
        have hkm : k ∉ m.map (fun e => e.1) :=
          fun hc => hk (alistAdd_keys_mono m _ _ k hc)
        have hkne : ¬ (k = objs.idxToAnimeId i) := by
          rintro rfl
          exact hk (alistAdd_key_self m _ _)
        simp [hT0 k hkm, hkne]
      have hrec := ih _ (fun k => T k + (if k = objs.idxToAnimeId i then objs.sim idx i else 0))
        hvals hT0n hnodup2 e he
      rw [hrec, passSum_cons]
      have hcond : (if e.1 = objs.idxToAnimeId i then objs.sim idx i else 0) =
          (if objs.idxToAnimeId i = e.1 ∧ e.1 ∉ ids then objs.sim idx i else 0) := by
        by_cases hc : e.1 = objs.idxToAnimeId i
        · rw [if_pos hc, if_pos ⟨hc.symm, by rw [hc]; exact hin⟩]
        · rw [if_neg hc, if_neg]
          rintro ⟨h1, _⟩
          exact hc h1.symm
      simp only [hcond]
      ring

/-- The total contribution of a seed list to candidate k: zero for seeds
without a Latent Vector, one full pass for the others. -/
def seedSum (objs : Objects) (ids seeds : List ItemId) (k : ItemId) : ℚ :=
  (seeds.map (fun a =>
    match objs.animeIdToIdx a with
    | none => 0
    | some idx => passSum objs ids idx (List.range objs.nItems) k)).sum

theorem batchFold_values (objs : Objects) (ids : List ItemId) :
    ∀ (seeds : List ItemId) (p : List (ItemId × ℚ) × Nat) (T : ItemId → ℚ),
      (∀ e ∈ p.1, e.2 = T e.1) →
      (∀ k, k ∉ p.1.map (fun e => e.1) → T k = 0) →
      (p.1.map (fun e => e.1)).Nodup →
      ∀ e ∈ (seeds.foldl (batchSeedStep objs ids) p).1,
        e.2 = T e.1 + seedSum objs ids seeds e.1 := by
  intro seeds
  induction seeds with
  | nil =>
    intro p T hT _ _ e he
    simpa [seedSum] using hT e he
  | cons a t ih =>
    intro p T hT hT0 hnodup e he
    simp only [List.foldl_cons] at he
    rcases hcase : objs.animeIdToIdx a with _ | idx
    · rw [show batchSeedStep objs ids p a = p from by simp [batchSeedStep, hcase]] at he
      have hrec := ih p T hT hT0 hnodup e he
      rw [show seedSum objs ids (a :: t) e.1 = seedSum objs ids t e.1 from by
        simp [seedSum, hcase]]
      exact hrec
    · rw [show batchSeedStep objs ids p a = (addSeedScores objs ids idx p.1, p.2 + 1) from by
        simp [batchSeedStep, hcase]] at he
      have hvals : ∀ e ∈ addSeedScores objs ids idx p.1,
          e.2 = T e.1 + passSum objs ids idx (List.range objs.nItems) e.1 :=
        aggPass_values objs ids idx (List.range objs.nItems) p.1 T hT hT0 hnodup
      have hT0' : ∀ k,
          k ∉ (addSeedScores objs ids idx p.1).map (fun e => e.1) →
          T k + passSum objs ids idx (List.range objs.nItems) k = 0 := by
        intro k hk
        have hkm : k ∉ p.1.map (fun e => e.1) :=
          fun hc => hk (aggPass_keys_mono objs ids idx _ _ k hc)
        have hpass : passSum objs ids idx (List.range objs.nItems) k = 0 := by
          apply List.sum_eq_zero
          intro x hx
          rcases List.mem_map.mp hx with ⟨i, hi, hxi⟩
          rw [← hxi, if_neg]
          rintro ⟨h1, h2⟩
          have hhit := aggPass_hit_mem objs ids idx (List.range objs.nItems) p.1 i hi
            (by rw [h1]; exact h2)
          rw [h1] at hhit
          exact hk hhit
        simp [hT0 k hkm, hpass]
      have hnodup' := aggPass_keys_nodup objs ids idx (List.range objs.nItems) p.1 hnodup
      have hrec := ih (addSeedScores objs ids idx p.1, p.2 + 1)
        (fun k => T k + passSum objs ids idx (List.range objs.nItems) k)
        hvals hT0' hnodup' e he
      rw [show seedSum objs ids (a :: t) e.1 =
          passSum objs ids idx (List.range objs.nItems) e.1 + seedSum objs ids t e.1 from by
        simp [seedSum, hcase]]
      rw [hrec]
      simp only []
      ring

theorem batchAggregate_values (objs : Objects) (ids : List ItemId) :
    ∀ e ∈ (batchAggregate objs ids).1, e.2 = seedSum objs ids ids e.1 := by
  intro e he
  have h := batchFold_values objs ids ids ([], 0) (fun _ => 0)
    (by simp) (by simp) (by simp) e he
  simpa using h

theorem batchFold_count (objs : Objects) (ids : List ItemId) :
    ∀ (seeds : List ItemId) (p : List (ItemId × ℚ) × Nat),
      (seeds.foldl (batchSeedStep objs ids) p).2 =
        p.2 + (seeds.filterMap objs.animeIdToIdx).length := by
  intro seeds
  induction seeds with
  | nil => intro p; simp
  | cons a t ih =>
    intro p
    simp only [List.foldl_cons]
    rcases hcase : objs.animeIdToIdx a with _ | idx
    · rw [show batchSeedStep objs ids p a = p from by simp [batchSeedStep, hcase]]
      rw [ih]
      simp [List.filterMap_cons, hcase]
    · rw [show batchSeedStep objs ids p a = (addSeedScores objs ids idx p.1, p.2 + 1) from by
        simp [batchSeedStep, hcase]]
      rw [ih]
      simp [List.filterMap_cons, hcase]
      omega

theorem batchAggregate_count (objs : Objects) (ids : List ItemId) :
    (batchAggregate objs ids).2 = (ids.filterMap objs.animeIdToIdx).length := by
  have h := batchFold_count objs ids ids ([], 0)
  simpa using h

theorem batchAggregate_keys_nodup (objs : Objects) (ids : List ItemId) :
    (((batchAggregate objs ids).1).map (fun e => e.1)).Nodup := by
  have go : ∀ (seeds : List ItemId) (p : List (ItemId × ℚ) × Nat),
      (p.1.map (fun e => e.1)).Nodup →
      (((seeds.foldl (batchSeedStep objs ids) p).1).map (fun e => e.1)).Nodup := by
    intro seeds
    induction seeds with
    | nil => exact fun p h => h
    | cons a t ih =>
      intro p h
      simp only [List.foldl_cons]
      rcases hcase : objs.animeIdToIdx a with _ | idx
      · rw [show batchSeedStep objs ids p a = p from by simp [batchSeedStep, hcase]]
        exact ih p h
      · rw [show batchSeedStep objs ids p a = (addSeedScores objs ids idx p.1, p.2 + 1) from by
          simp [batchSeedStep, hcase]]
        exact ih _ (aggPass_keys_nodup objs ids idx (List.range objs.nItems) p.1 h)
  exact go ids ([], 0) (by simp)

theorem batchFold_keys_mono (objs : Objects) (ids : List ItemId) :
    ∀ (seeds : List ItemId) (p : List (ItemId × ℚ) × Nat) (x : ItemId),
      x ∈ p.1.map (fun e => e.1) →
      x ∈ ((seeds.foldl (batchSeedStep objs ids) p).1).map (fun e => e.1) := by
  intro seeds
  induction seeds with
  | nil => exact fun p x h => h
  | cons a t ih =>
    intro p x h
    simp only [List.foldl_cons]
    rcases hcase : objs.animeIdToIdx a with _ | idx
    · rw [show batchSeedStep objs ids p a = p from by simp [batchSeedStep, hcase]]
      exact ih p x h
    · rw [show batchSeedStep objs ids p a = (addSeedScores objs ids idx p.1, p.2 + 1) from by
        simp [batchSeedStep, hcase]]
      exact ih _ x (aggPass_keys_mono objs ids idx (List.range objs.nItems) p.1 x h)

theorem batchFold_mem_key (objs : Objects) (ids : List ItemId) (C : ItemId)
    (hnot : C ∉ ids) (pC : Nat) (hpC : pC < objs.nItems)
    (hC : objs.idxToAnimeId pC = C) :
    ∀ (seeds : List ItemId) (p : List (ItemId × ℚ) × Nat) (a : ItemId),
      a ∈ seeds → (objs.animeIdToIdx a).isSome →
      C ∈ ((seeds.foldl (batchSeedStep objs ids) p).1).map (fun e => e.1) := by
  intro seeds
  induction seeds with
  | nil => intro p a ha; cases ha
  | cons b t ih =>
    intro p a ha hsome
    simp only [List.foldl_cons]
    rcases List.mem_cons.mp ha with rfl | ha
    · rcases Option.isSome_iff_exists.mp hsome with ⟨idx, hidx⟩
      rw [show batchSeedStep objs ids p a = (addSeedScores objs ids idx p.1, p.2 + 1) from by
        simp [batchSeedStep, hidx]]
      refine batchFold_keys_mono objs ids t _ C ?_
      have hhit := aggPass_hit_mem objs ids idx (List.range objs.nItems) p.1 pC
        (List.mem_range.mpr hpC) (by rw [hC]; exact hnot)
      rwa [hC] at hhit
    · exact ih (batchSeedStep objs ids p b) a ha hsome

theorem lookup_of_values (T : ItemId → ℚ) :
    ∀ (m : List (ItemId × ℚ)) (k : ItemId),
      k ∈ m.map (fun e => e.1) → (∀ e ∈ m, e.2 = T e.1) →
      List.lookup k m = some (T k) := by
  intro m
  induction m with
  | nil =>
    intro k hk
    simp at hk
  | cons hd t ih =>
    obtain ⟨k0, v0⟩ := hd
    intro k hk hT
    by_cases h : k = k0
    · subst h
      have hv : v0 = T k := by simpa using hT (k, v0) (List.mem_cons_self _ _)
      simp [List.lookup, hv]
    · have hk2 : k ∈ t.map (fun e => e.1) := by
        rw [List.map_cons] at hk
        rcases List.mem_cons.mp hk with h1 | h1
        · exact absurd h1 h
        · exact h1
      have hbeq : (k == k0) = false := by simp [h]
      simp only [List.lookup, hbeq]
      exact ih k hk2 (fun e he => hT e (List.mem_cons_of_mem _ he))

theorem lookup_map_div (c : ℚ) :
    ∀ (m : List (ItemId × ℚ)) (k : ItemId),
      List.lookup k (m.map (fun kv => (kv.1, kv.2 / c))) =
        (List.lookup k m).map (fun v => v / c) := by
  intro m
  induction m with
  | nil => intro k; rfl
  | cons hd t ih =>
    obtain ⟨k0, v0⟩ := hd
    intro k
    by_cases h : k = k0
    · subst h
      simp [List.lookup]
    · have hbeq : (k == k0) = false := by simp [h]
      simp only [List.map_cons, List.lookup, hbeq]
      exact ih k

theorem sum_single_term (g : Nat → ℚ) (p : Nat) :
    ∀ (L : List Nat), L.Nodup → p ∈ L →
      (L.map (fun i => if i = p then g i else 0)).sum = g p := by
  intro L
  induction L with
  | nil => intro _ hp; cases hp
  | cons a t ih =>
    intro hnodup hp
    rcases List.nodup_cons.mp hnodup with ⟨hat, hnt⟩
    by_cases hap : a = p
    · subst hap
      simp only [List.map_cons, List.sum_cons, if_pos rfl]
      have hz : (t.map (fun i => if i = a then g i else 0)).sum = 0 := by
        apply List.sum_eq_zero
        intro x hx
        rcases List.mem_map.mp hx with ⟨i, hi, hxi⟩
        rw [← hxi, if_neg]
        intro hia
        rw [hia] at hi
        exact hat hi
      rw [hz, add_zero]
      simp
    · have hp2 : p ∈ t := by
        rcases List.mem_cons.mp hp with h1 | h1
        · exact absurd h1.symm hap
        · exact h1
      simp only [List.map_cons, List.sum_cons, if_neg hap]
      rw [zero_add]
      exact ih hnt hp2

theorem passSum_single (objs : Objects) (ids : List ItemId) (idx pC : Nat)
    (C : ItemId) (hpC : pC < objs.nItems) (hC : objs.idxToAnimeId pC = C)
    (huniq : ∀ i, i < objs.nItems → objs.idxToAnimeId i = C → i = pC)
    (hnot : C ∉ ids) :
    passSum objs ids idx (List.range objs.nItems) C = objs.sim idx pC := by
  have hmapeq : (List.range objs.nItems).map
      (fun i => if objs.idxToAnimeId i = C ∧ C ∉ ids then objs.sim idx i else 0) =
      (List.range objs.nItems).map (fun i => if i = pC then objs.sim idx i else 0) := by
    refine List.map_congr_left ?_
    intro i hi
    by_cases hc : objs.idxToAnimeId i = C
    · have hip : i = pC := huniq i (List.mem_range.mp hi) hc
      subst hip
      rw [if_pos ⟨hc, hnot⟩, if_pos rfl]
    · rw [if_neg (by rintro ⟨h1, _⟩; exact hc h1),
        if_neg (by rintro rfl; exact hc hC)]
  rw [passSum, hmapeq]
  exact sum_single_term (fun i => objs.sim idx i) pC (List.range objs.nItems)
    (List.nodup_range _) (List.mem_range.mpr hpC)

theorem seedSum_filterMap (objs : Objects) (ids : List ItemId) (k : ItemId) :
    ∀ (seeds : List ItemId),
      seedSum objs ids seeds k =
        ((seeds.filterMap objs.animeIdToIdx).map
          (fun idx => passSum objs ids idx (List.range objs.nItems) k)).sum := by
  intro seeds
  induction seeds with
  | nil => rfl
  | cons a t ih =>
    rcases hcase : objs.animeIdToIdx a with _ | idx
    · rw [show seedSum objs ids (a :: t) k = seedSum objs ids t k from by
        simp [seedSum, hcase]]
      rw [ih]
      simp [List.filterMap_cons, hcase]
    · rw [show seedSum objs ids (a :: t) k =
          passSum objs ids idx (List.range objs.nItems) k + seedSum objs ids t k from by
        simp [seedSum, hcase]]
      rw [ih]
      simp [List.filterMap_cons, hcase]

theorem filterMap_of_filter (f : ItemId → Option Nat) :
    ∀ (l : List ItemId),
      l.filterMap f = (l.filter (fun a => (f a).isSome)).filterMap f := by
  intro l
  induction l with
  | nil => rfl
  | cons a t ih =>
    rcases hcase : f a with _ | x
    · simp [List.filterMap_cons, List.filter_cons, hcase, ih]
    · simp [List.filterMap_cons, List.filter_cons, hcase, ih]

/-! ## Claim C1 -/

/-- Claim C1: in a batch query whose valid seeds are exactly A and B (both
with Latent Vectors, in this order), the aggregated score of every candidate
C outside the seed set - looked up in the averaged dict before the top-100
cut, the seed filter and the truncation - is the arithmetic mean of the raw
cosine similarity of C against A and against B.  Seeds without a Latent
Vector are filtered out of the valid list and so contribute nothing to sum
or divisor. -/
theorem batch_aggregated_mean (objs : Objects) (ids : List ItemId)
    (A B C : ItemId) (pA pB pC : Nat)
    (hA : objs.animeIdToIdx A = some pA)
    (hB : objs.animeIdToIdx B = some pB)
    (hseeds : ids.filter (fun a => (objs.animeIdToIdx a).isSome) = [A, B])
    (hpC : pC < objs.nItems)
    (hC : objs.idxToAnimeId pC = C)
    (huniq : ∀ i, i < objs.nItems → objs.idxToAnimeId i = C → i = pC)
    (hnot : C ∉ ids) :
    List.lookup C (batchAveraged objs ids) =
      some ((objs.sim pA pC + objs.sim pB pC) / 2) := by
  have hfm : ids.filterMap objs.animeIdToIdx = [pA, pB] := by
    rw [filterMap_of_filter objs.animeIdToIdx ids, hseeds]
    simp [List.filterMap_cons, hA, hB]
  have hAin : A ∈ ids ∧ (objs.animeIdToIdx A).isSome := by
    have hmemf : A ∈ ids.filter (fun a => (objs.animeIdToIdx a).isSome) := by
      rw [hseeds]
      simp
    rcases List.mem_filter.mp hmemf with ⟨h1, h2⟩
    exact ⟨h1, by simpa using h2⟩
  have hcnt : (batchAggregate objs ids).2 = 2 := by
    rw [batchAggregate_count, hfm]
    rfl
  have hmem : C ∈ ((batchAggregate objs ids).1).map (fun e => e.1) :=
    batchFold_mem_key objs ids C hnot pC hpC hC ids ([], 0) A hAin.1 hAin.2
  have hlook : List.lookup C (batchAggregate objs ids).1 =
      some (seedSum objs ids ids C) :=
    lookup_of_values (seedSum objs ids ids) _ C hmem (batchAggregate_values objs ids)
  have hsum : seedSum objs ids ids C = objs.sim pA pC + objs.sim pB pC := by
    rw [seedSum_filterMap, hfm]
    simp [passSum_single objs ids pA pC C hpC hC huniq hnot,
      passSum_single objs ids pB pC C hpC hC huniq hnot]
  rw [batchAveraged, lookup_map_div, hlook, hcnt, hsum]
  norm_num

/-- Witness state for C1: seeds 10 and 20 occupy positions 0 and 1, candidate
30 is position 2, with similarities 4 and 6 against the two seeds. -/
def witObjs1 : Objects :=
  { hasModel := true
    animeIdToIdx := fun a => if a = 10 then some 0 else if a = 20 then some 1 else none
    idxToAnimeId := fun i => if i = 0 then 10 else if i = 1 then 20 else 30
    nItems := 3
    sim := fun a b => if a = 0 ∧ b = 2 then 4 else if a = 1 ∧ b = 2 then 6 else 1
    metadata := fun _ => none
    hasTfidf := false
    tfidfAnimeIds := []
    tfidfSim := fun _ _ => 0 }

theorem batch_aggregated_mean_witness :
    List.lookup 30 (batchAveraged witObjs1 [10, 20]) =
      some ((witObjs1.sim 0 2 + witObjs1.sim 1 2) / 2) :=
  batch_aggregated_mean witObjs1 [10, 20] 10 20 30 0 1 2 (by decide) (by decide)
    (by decide) (by decide) (by decide) (by decide) (by decide)

/-! ## Seed duplication machinery for claim C10 -/

theorem mem_dupList (ids : List ItemId) (a : ItemId) :
    a ∈ dupList ids ↔ a ∈ ids := by
  simp [dupList]

theorem dupList_cons (a : ItemId) (t : List ItemId) :
    dupList (a :: t) = a :: a :: dupList t := by
  simp [dupList]

theorem aggStep_dup (objs : Objects) (ids : List ItemId) (idx : Nat) :
    aggStep objs (dupList ids) idx = aggStep objs ids idx := by
  funext m i
  simp only [aggStep]
  by_cases h : objs.idxToAnimeId i ∈ ids
  · rw [if_pos h, if_pos ((mem_dupList ids _).mpr h)]
  · rw [if_neg h, if_neg (fun hc => h ((mem_dupList ids _).mp hc))]

theorem addSeedScores_dup (objs : Objects) (ids : List ItemId) (idx : Nat) :
    addSeedScores objs (dupList ids) idx = addSeedScores objs ids idx := by
  funext m
  simp only [addSeedScores, aggStep_dup]

theorem batchSeedStep_dup (objs : Objects) (ids : List ItemId) :
    batchSeedStep objs (dupList ids) = batchSeedStep objs ids := by
  funext p a
  simp only [batchSeedStep]
  rcases hcase : objs.animeIdToIdx a with _ | idx
  · rfl
  · simp [addSeedScores_dup]

/-- Pointwise doubling of the accumulated values. -/
def dblVals (m : List (ItemId × ℚ)) : List (ItemId × ℚ) :=
  m.map (fun kv => (kv.1, 2 * kv.2))

theorem dblVals_keys (m : List (ItemId × ℚ)) :
    (dblVals m).map (fun e => e.1) = m.map (fun e => e.1) := by
  simp only [dblVals, List.map_map]
  exact List.map_congr_left (fun kv _ => rfl)

theorem map_untouched (k : ItemId) (v : ℚ) :
    ∀ (t : List (ItemId × ℚ)), k ∉ t.map (fun e => e.1) →
      t.map (fun kv => if kv.1 = k then (kv.1, kv.2 + v) else kv) = t := by
  intro t
  induction t with
  | nil => intro _; rfl
  | cons hd s ih =>
    intro ht
    rw [List.map_cons] at ht
    simp only [List.mem_cons, not_or] at ht
    obtain ⟨hne, hns⟩ := ht
    simp only [List.map_cons]
    rw [if_neg (fun hc => hne hc.symm), ih hns]

theorem alistAdd_existing (m : List (ItemId × ℚ)) (k : ItemId) (v : ℚ)
    (hnodup : (m.map (fun e => e.1)).Nodup) (hmem : k ∈ m.map (fun e => e.1)) :
    alistAdd m k v = m.map (fun kv => if kv.1 = k then (kv.1, kv.2 + v) else kv) := by
  induction m with
  | nil => simp at hmem
  | cons hd t ih =>
    obtain ⟨k0, v0⟩ := hd
    rw [List.map_cons] at hnodup hmem
    rcases List.nodup_cons.mp hnodup with ⟨hk0, hnt⟩
    by_cases h : k0 = k
    · subst h
      simp [alistAdd, map_untouched k0 v t hk0]
    · have hmem2 : k ∈ t.map (fun e => e.1) := by
        rcases List.mem_cons.mp hmem with h1 | h1
        · exact absurd h1.symm h
        · exact h1
      simp only [alistAdd, if_neg h, List.map_cons]
      rw [ih hnt hmem2]

theorem aggPass_all_present (objs : Objects) (ids : List ItemId) (idx : Nat) :
    ∀ (L : List Nat) (m : List (ItemId × ℚ)),
      (m.map (fun e => e.1)).Nodup →
      (∀ i ∈ L, objs.idxToAnimeId i ∉ ids →
        objs.idxToAnimeId i ∈ m.map (fun e => e.1)) →
      L.foldl (aggStep objs ids idx) m =
        m.map (fun kv => (kv.1, kv.2 + passSum objs ids idx L kv.1)) := by
  intro L
  induction L with
  | nil =>
    intro m _ _
    simp [passSum_nil]
  | cons i t ih =>
    intro m hnodup hall
    simp only [List.foldl_cons]
    by_cases hin : objs.idxToAnimeId i ∈ ids
    · have hstep : aggStep objs ids idx m i = m := by
        simp only [aggStep]
        rw [if_pos hin]
      rw [hstep, ih m hnodup (fun j hj => hall j (List.mem_cons_of_mem _ hj))]
      refine List.map_congr_left ?_
      intro kv _
      rw [passSum_cons]
      have hterm :
          (if objs.idxToAnimeId i = kv.1 ∧ kv.1 ∉ ids then objs.sim idx i else 0) = 0 := by
        rw [if_neg]
        rintro ⟨h1, h2⟩
        exact h2 (h1 ▸ hin)
      rw [hterm, zero_add]
    · have hkey : objs.idxToAnimeId i ∈ m.map (fun e => e.1) :=
        hall i (List.mem_cons_self _ _) hin
      have hstep : aggStep objs ids idx m i =
          m.map (fun kv => if kv.1 = objs.idxToAnimeId i
            then (kv.1, kv.2 + objs.sim idx i) else kv) := by
        simp only [aggStep]
        rw [if_neg hin]
        exact alistAdd_existing m _ _ hnodup hkey
      have hkeys_eq : (m.map (fun kv => if kv.1 = objs.idxToAnimeId i
            then (kv.1, kv.2 + objs.sim idx i) else kv)).map (fun e => e.1) =
          m.map (fun e => e.1) := by
        rw [List.map_map]
        refine List.map_congr_left ?_
        intro kv _
        by_cases hc : kv.1 = objs.idxToAnimeId i <;> simp [hc]
      rw [hstep, ih _ (by rw [hkeys_eq]; exact hnodup)
        (fun j hj hjn => by rw [hkeys_eq]; exact hall j (List.mem_cons_of_mem _ hj) hjn)]
      rw [List.map_map]
      refine List.map_congr_left ?_
      intro kv _
      simp only [Function.comp]
      rw [passSum_cons]
      by_cases hc : kv.1 = objs.idxToAnimeId i
      · rw [if_pos hc]
        rw [if_pos ⟨hc.symm, by rw [hc]; exact hin⟩]
        exact congrArg (Prod.mk kv.1) (by ring)
      · rw [if_neg hc]
        rw [if_neg (by rintro ⟨h1, _⟩; exact hc h1.symm)]
        rw [zero_add]

theorem addSeedScores_all_present (objs : Objects) (ids : List ItemId) (idx : Nat)
    (m : List (ItemId × ℚ))
    (hnodup : (m.map (fun e => e.1)).Nodup)
    (hall : ∀ i ∈ List.range objs.nItems, objs.idxToAnimeId i ∉ ids →
      objs.idxToAnimeId i ∈ m.map (fun e => e.1)) :
    addSeedScores objs ids idx m =
      m.map (fun kv => (kv.1, kv.2 + passSum objs ids idx (List.range objs.nItems) kv.1)) :=
  aggPass_all_present objs ids idx (List.range objs.nItems) m hnodup hall

theorem pass_keys_of_all_present (objs : Objects) (ids : List ItemId) (idx : Nat)
    (m : List (ItemId × ℚ))
    (hnodup : (m.map (fun e => e.1)).Nodup)
    (hall : ∀ i ∈ List.range objs.nItems, objs.idxToAnimeId i ∉ ids →
      objs.idxToAnimeId i ∈ m.map (fun e => e.1)) :
    (addSeedScores objs ids idx m).map (fun e => e.1) = m.map (fun e => e.1) := by
  rw [show addSeedScores objs ids idx m = m.map
      (fun kv => (kv.1, kv.2 + passSum objs ids idx (List.range objs.nItems) kv.1)) from
    aggPass_all_present objs ids idx _ m hnodup hall]
  rw [List.map_map]
  exact List.map_congr_left (fun kv _ => rfl)

theorem pass_pass_dbl (objs : Objects) (ids : List ItemId) (idx : Nat)
    (m : List (ItemId × ℚ))
    (hnodup : (m.map (fun e => e.1)).Nodup)
    (hall : ∀ i ∈ List.range objs.nItems, objs.idxToAnimeId i ∉ ids →
      objs.idxToAnimeId i ∈ m.map (fun e => e.1)) :
    addSeedScores objs ids idx (addSeedScores objs ids idx (dblVals m)) =
      dblVals (addSeedScores objs ids idx m) := by
  have hkd : (dblVals m).map (fun e => e.1) = m.map (fun e => e.1) := dblVals_keys m
  have hnod1 : ((dblVals m).map (fun e => e.1)).Nodup := by
    rw [hkd]
    exact hnodup
  have hall1 : ∀ i ∈ List.range objs.nItems, objs.idxToAnimeId i ∉ ids →
      objs.idxToAnimeId i ∈ (dblVals m).map (fun e => e.1) := by
    intro i hi hn
    rw [hkd]
    exact hall i hi hn
  have hk1 : (addSeedScores objs ids idx (dblVals m)).map (fun e => e.1) =
      m.map (fun e => e.1) := by
    rw [pass_keys_of_all_present objs ids idx _ hnod1 hall1, hkd]
  have hnod2 : ((addSeedScores objs ids idx (dblVals m)).map (fun e => e.1)).Nodup := by
    rw [hk1]
    exact hnodup
  have hall2 : ∀ i ∈ List.range objs.nItems, objs.idxToAnimeId i ∉ ids →
      objs.idxToAnimeId i ∈ (addSeedScores objs ids idx (dblVals m)).map (fun e => e.1) := by
    intro i hi hn
    rw [hk1]
    exact hall i hi hn
  rw [addSeedScores_all_present objs ids idx _ hnod2 hall2,
    addSeedScores_all_present objs ids idx _ hnod1 hall1,
    addSeedScores_all_present objs ids idx m hnodup hall]
  simp only [dblVals, List.map_map]
  refine List.map_congr_left ?_
  intro kv _
  simp only [Function.comp]
  exact congrArg (Prod.mk kv.1) (by ring)

theorem batchFold_dup (objs : Objects) (ids : List ItemId) :
    ∀ (seeds : List ItemId) (m : List (ItemId × ℚ)) (cnt : Nat),
      (m.map (fun e => e.1)).Nodup →
      (∀ i ∈ List.range objs.nItems, objs.idxToAnimeId i ∉ ids →
        objs.idxToAnimeId i ∈ m.map (fun e => e.1)) →
      (dupList seeds).foldl (batchSeedStep objs ids) (dblVals m, 2 * cnt) =
        (dblVals ((seeds.foldl (batchSeedStep objs ids) (m, cnt)).1),
          2 * (seeds.foldl (batchSeedStep objs ids) (m, cnt)).2) := by
  intro seeds
  induction seeds with
  | nil =>
    intro m cnt _ _
    simp [dupList]
  | cons a t ih =>
    intro m cnt hnodup hall
    rw [dupList_cons]
    simp only [List.foldl_cons]
    rcases hcase : objs.animeIdToIdx a with _ | idx
    · have hstep : ∀ p : List (ItemId × ℚ) × Nat, batchSeedStep objs ids p a = p :=
        fun p => by simp [batchSeedStep, hcase]
      simp only [hstep]
      exact ih m cnt hnodup hall
    · have hstep : ∀ p : List (ItemId × ℚ) × Nat,
          batchSeedStep objs ids p a = (addSeedScores objs ids idx p.1, p.2 + 1) :=
        fun p => by simp [batchSeedStep, hcase]
      simp only [hstep]
      have hpp := pass_pass_dbl objs ids idx m hnodup hall
      have hkp := pass_keys_of_all_present objs ids idx m hnodup hall
      have harith : 2 * cnt + 1 + 1 = 2 * (cnt + 1) := by omega
      rw [hpp, harith]
      exact ih (addSeedScores objs ids idx m) (cnt + 1)
        (by rw [hkp]; exact hnodup)
        (fun i hi hn => by rw [hkp]; exact hall i hi hn)

theorem batchFold_dup_from_empty (objs : Objects) (ids : List ItemId) :
    ∀ (seeds : List ItemId),
      (dupList seeds).foldl (batchSeedStep objs ids) ([], 0) =
        (dblVals ((seeds.foldl (batchSeedStep objs ids) ([], 0)).1),
          2 * (seeds.foldl (batchSeedStep objs ids) ([], 0)).2) := by
  intro seeds
  induction seeds with
  | nil => rfl
  | cons a t ih =>
    rw [dupList_cons]
    simp only [List.foldl_cons]
    rcases hcase : objs.animeIdToIdx a with _ | idx
    · have hstep : ∀ p : List (ItemId × ℚ) × Nat, batchSeedStep objs ids p a = p :=
        fun p => by simp [batchSeedStep, hcase]
      simp only [hstep]
      exact ih
    · have hstep : ∀ p : List (ItemId × ℚ) × Nat,
          batchSeedStep objs ids p a = (addSeedScores objs ids idx p.1, p.2 + 1) :=
        fun p => by simp [batchSeedStep, hcase]
      simp only [hstep]
      have hnodM0 : ((addSeedScores objs ids idx []).map (fun e => e.1)).Nodup :=
        aggPass_keys_nodup objs ids idx (List.range objs.nItems) [] (by simp)
      have hallM0 : ∀ i ∈ List.range objs.nItems, objs.idxToAnimeId i ∉ ids →
          objs.idxToAnimeId i ∈ (addSeedScores objs ids idx []).map (fun e => e.1) :=
        fun i hi hn => aggPass_hit_mem objs ids idx (List.range objs.nItems) [] i hi hn
      have hdbl : addSeedScores objs ids idx (addSeedScores objs ids idx []) =
          dblVals (addSeedScores objs ids idx []) := by
        rw [addSeedScores_all_present objs ids idx _ hnodM0 hallM0]
        refine List.map_congr_left ?_
        intro kv hkv
        have hval := aggPass_values objs ids idx (List.range objs.nItems) []
          (fun _ => 0) (by simp) (by simp) (by simp) kv hkv
        rw [zero_add] at hval
        rw [← hval]
        exact congrArg (Prod.mk kv.1) (by ring)
      rw [hdbl]
      exact batchFold_dup objs ids t (addSeedScores objs ids idx []) 1 hnodM0 hallM0

theorem batchAggregate_dup (objs : Objects) (ids : List ItemId) :
    batchAggregate objs (dupList ids) =
      (dblVals (batchAggregate objs ids).1, 2 * (batchAggregate objs ids).2) := by
  unfold batchAggregate
  rw [batchSeedStep_dup]
  exact batchFold_dup_from_empty objs ids ids

theorem batchAveraged_dup (objs : Objects) (ids : List ItemId) :
    batchAveraged objs (dupList ids) = batchAveraged objs ids := by
  unfold batchAveraged
  rw [batchAggregate_dup]
  simp only [dblVals, List.map_map]
  refine List.map_congr_left ?_
  intro kv _
  simp only [Function.comp]
  refine congrArg (Prod.mk kv.1) ?_
  push_cast
  rw [mul_div_mul_left kv.2 _ two_ne_zero]

theorem mem_batchInputBases_dup (objs : Objects) (ids : List ItemId) (x : String) :
    x ∈ batchInputBases objs (dupList ids) ↔ x ∈ batchInputBases objs ids := by
  simp only [batchInputBases, List.mem_filterMap]
  constructor
  · rintro ⟨a, ha, hx⟩
    exact ⟨a, (mem_dupList ids a).mp ha, hx⟩
  · rintro ⟨a, ha, hx⟩
    exact ⟨a, (mem_dupList ids a).mpr ha, hx⟩

theorem batchPrep_dup (objs : Objects) (ids : List ItemId) :
    batchPrep objs (batchInputBases objs (dupList ids)) =
      batchPrep objs (batchInputBases objs ids) := by
  funext kv
  simp only [batchPrep]
  by_cases h : normalize_title (metaTitleLower objs kv.1) ∈ batchInputBases objs ids
  · rw [if_pos h, if_pos ((mem_batchInputBases_dup objs ids _).mpr h)]
  · rw [if_neg h, if_neg (fun hc => h ((mem_batchInputBases_dup objs ids _).mp hc))]

/-! ## Claim C10 -/

/-- Claim C10: recommend_batch is invariant under seed duplication: repeating
each seed twice doubles every accumulated score and the valid-seed divisor,
so every mean, hence the whole recommendations list, is unchanged; the
exclusion set and the seed franchise keys are membership-based and also
unchanged.  Only the message text and input_titles may differ, which the
recommendations projection ignores; the error cases coincide as well. -/
theorem recommend_batch_dup_invariant (objs : Objects) (ids : List ItemId)
    (lim : Nat) :
    okRecs (recommend_batch (dupList ids) objs lim) =
      okRecs (recommend_batch ids objs lim) := by
  rw [recommend_batch, recommend_batch]
  by_cases hm : objs.hasModel = true
  · simp only [hm, Bool.not_true, Bool.false_eq_true, if_false]
    rw [batchAggregate_dup, batchAveraged_dup, batchPrep_dup]
    by_cases hc : (batchAggregate objs ids).2 = 0
    · rw [if_pos hc, if_pos (show (dblVals (batchAggregate objs ids).1,
          2 * (batchAggregate objs ids).2).2 = 0 by simp [hc])]
    · rw [if_neg hc, if_neg (show ¬ (dblVals (batchAggregate objs ids).1,
          2 * (batchAggregate objs ids).2).2 = 0 by simp [hc])]
      rfl
  · have hm2 : objs.hasModel = false := by
      rcases Bool.dichotomy objs.hasModel with h | h
      · exact h
      · exact absurd h hm
    simp [hm2]
